import Mathlib

/-! Formal model of the Smart-CLIR BM25 indexing and retrieval engine.

The definitions below are a shallow embedding of
`src/indexing/build_index.py` (`DocumentPreprocessor`, `InvertedIndex`) and
`src/retrieval/lexical_bm25.py` (`BM25Retriever`).  Python strings are
modelled as lists of characters, Python dicts as insertion-ordered
association lists, floats as real numbers (rationals where the source only
ever holds exact values), and fallible operations return `Option`/`Except`
values whose error constructors model the Python exceptions the source can
raise (`ValueError`, `ZeroDivisionError`, `KeyError`).
-/

namespace CLIR

/-- Python strings, modelled as lists of characters (code points). -/
abbrev Str := List Char

/-- Whitespace, as matched both by the regex class `\s` and by `str.split()`
with no arguments in Python 3 (ASCII whitespace, the C1 separators, and the
Unicode space characters). -/
def isWS (c : Char) : Bool :=
  decide (c.toNat = 9 ∨ c.toNat = 10 ∨ c.toNat = 11 ∨ c.toNat = 12 ∨ c.toNat = 13 ∨
    (28 ≤ c.toNat ∧ c.toNat ≤ 32) ∨ c.toNat = 133 ∨ c.toNat = 160 ∨ c.toNat = 5760 ∨
    (8192 ≤ c.toNat ∧ c.toNat ≤ 8202) ∨ c.toNat = 8232 ∨ c.toNat = 8233 ∨
    c.toNat = 8239 ∨ c.toNat = 8287 ∨ c.toNat = 12288)

/-- Characters of the Bangla Unicode block U+0980 - U+09FF, the class
matched by the source's regex `[ঀ-৿]`. -/
def isBanglaChar (c : Char) : Bool :=
  decide (0x980 ≤ c.toNat ∧ c.toNat ≤ 0x9FF)

/-- `DocumentPreprocessor.is_bangla`: a text "is Bangla" when it contains at
least one character of the Bangla block. -/
def is_bangla (t : Str) : Bool := t.any isBanglaChar

/-- Match a literal pattern at the start of the input; on success return the
remaining input. -/
def dropPat : Str → Str → Option Str
  | [], cs => some cs
  | _ :: _, [] => none
  | p :: ps, c :: cs => if c = p then dropPat ps cs else none

/-- One step of Python's `re.sub(r'http\S+|www\S+', '', text)`: does a match
start at the head of `cs`?  The alternation tries `http\S+` first; `\S+` is
greedy, consuming the maximal run of non-whitespace characters, and must
consume at least one character.  On success, return the input remaining
after the match. -/
def urlMatchAt (cs : Str) : Option Str :=
  match dropPat ("http".data) cs with
  | some rest =>
    match rest with
    | [] => none
    | c :: _ => if isWS c then none else some (rest.dropWhile (fun c => !isWS c))
  | none =>
    match dropPat ("www".data) cs with
    | some rest =>
      match rest with
      | [] => none
      | c :: _ => if isWS c then none else some (rest.dropWhile (fun c => !isWS c))
    | none => none

/-- Fuelled scan for `re.sub(r'http\S+|www\S+', '', text)`: scan left to
right; at each position remove the leftmost match (continuing after its
end, as `re.sub` does) or keep the character.  The fuel only serves
structural termination; `removeUrls` supplies enough of it. -/
def removeUrlsF : Nat → Str → Str
  | 0, _ => []
  | _ + 1, [] => []
  | f + 1, c :: cs =>
    match urlMatchAt (c :: cs) with
    | some rest => removeUrlsF f rest
    | none => c :: removeUrlsF f cs

/-- Python's `re.sub(r'http\S+|www\S+', '', text)`. -/
def removeUrls (cs : Str) : Str := removeUrlsF cs.length cs

/-- Does the regex `\S+@\S+` match a maximal non-whitespace run `run`?
Backtracking on the greedy `\S+` groups means the run matches exactly when
it carries an `'@'` that has at least one non-whitespace character on each
side, i.e. an `'@'` strictly inside the run; and then the two greedy groups
extend the match to the whole run. -/
def emailRunMatch (run : Str) : Bool := (run.drop 1).dropLast.contains '@'

/-- Emit one maximal non-whitespace run: drop it entirely if `\S+@\S+`
matches it, keep it unchanged otherwise. -/
def emitRun (run : Str) : Str := if emailRunMatch run then [] else run

/-- Accumulator worker for `removeEmails`: `acc` is the reversed prefix of
the current non-whitespace run. -/
def removeEmailsAux : Str → Str → Str
  | [], acc => emitRun acc.reverse
  | c :: cs, acc =>
    if isWS c then emitRun acc.reverse ++ c :: removeEmailsAux cs []
    else removeEmailsAux cs (c :: acc)

/-- Python's `re.sub(r'\S+@\S+', '', text)`: every maximal non-whitespace
run containing an interior `'@'` is removed, whitespace is kept. -/
def removeEmails (cs : Str) : Str := removeEmailsAux cs []

/-- The character class kept by the script filter: the Bangla block for the
`'bn'` branch (`[^ঀ-৿\s]` is replaced by a space), ASCII
alphanumerics for the other branch (`[^a-zA-Z0-9\s]` is replaced). -/
def allowedChar (lang : String) (c : Char) : Bool :=
  if lang = "bn" then isBanglaChar c
  else decide ((97 ≤ c.toNat ∧ c.toNat ≤ 122) ∨ (65 ≤ c.toNat ∧ c.toNat ≤ 90) ∨
    (48 ≤ c.toNat ∧ c.toNat ≤ 57))

/-- One character of the script-filtering `re.sub`: characters outside the
allowed class and the whitespace class become a space. -/
def sfChar (lang : String) (c : Char) : Char :=
  if allowedChar lang c || isWS c then c else ' '

/-- The script-filtering `re.sub` over a whole text. -/
def scriptFilter (lang : String) (cs : Str) : Str :=
  cs.map (sfChar lang)

/-- The language-hint resolution performed at the top of `tokenize`:
`'auto'` becomes `'bn'` or `'en'` by presence of Bangla characters. -/
def resolveLang (language : String) (text : Str) : String :=
  if language = "auto" then (if is_bangla text then "bn" else "en") else language

/-- The language-hint resolution performed by `remove_stopwords`: under
`'auto'` the language is re-detected from the first token, defaulting to
English for an empty token list. -/
def resolveSW (language : String) (tokens : List Str) : String :=
  if language = "auto" then
    (match tokens with
     | [] => "en"
     | t :: _ => if is_bangla t then "bn" else "en")
  else language


/-- Python `str.lower()` restricted to the characters that can reach it in
`tokenize` (ASCII alphanumerics, Bangla block, whitespace): only the ASCII
uppercase letters are mapped down; everything else in those classes is
fixed by full-Unicode lowercasing as well. -/
def pyLower (c : Char) : Char :=
  if decide (65 ≤ c.toNat ∧ c.toNat ≤ 90) then Char.ofNat (c.toNat + 32) else c

/-- Accumulator worker for `splitWS`; `acc` is the reversed pending token. -/
def splitWSAux : Str → Str → List Str
  | [], acc => if acc.isEmpty then [] else [acc.reverse]
  | c :: cs, acc =>
    if isWS c then
      if acc.isEmpty then splitWSAux cs [] else acc.reverse :: splitWSAux cs []
    else splitWSAux cs (c :: acc)

/-- Python `str.split()` with no arguments: maximal non-whitespace runs. -/
def splitWS (cs : Str) : List Str := splitWSAux cs []

/-- Python `str.strip()`: drop leading and trailing whitespace. -/
def pyStrip (cs : Str) : Str :=
  ((cs.dropWhile (fun c => isWS c)).reverse.dropWhile (fun c => isWS c)).reverse

/-- `DocumentPreprocessor.tokenize`: resolve `'auto'` by presence of Bangla
characters, strip URLs and e-mail addresses, filter by script, lowercase,
split on whitespace and keep non-empty stripped tokens.  (Lowercasing
happens after filtering in the source, so the ASCII-only `pyLower` is
exact.) -/
def tokenize (text : Str) (language : String) : List Str :=
  let lang := resolveLang language text
  let t1 := removeUrls text
  let t2 := removeEmails t1
  let t3 := scriptFilter lang t2
  let lowered := t3.map pyLower
  (splitWS lowered).filterMap (fun w =>
    let s := pyStrip w
    if s.isEmpty then none else some s)

/-- The source's fixed English stopword set. -/
def english_stopwords : List Str :=
  (["a", "an", "and", "are", "as", "at", "be", "by", "for", "from",
    "has", "he", "in", "is", "it", "its", "of", "on", "that", "the",
    "to", "was", "will", "with", "this", "but", "they", "have", "had",
    "what", "when", "where", "who", "which", "why", "how"]).map String.data

/-- The source's fixed Bangla stopword set, transcribed code point by code
point (several entries use the decomposed sequence U+09AF U+09BC). -/
def bangla_stopwords : List Str :=
  (["এবং", "বা", "যে", "এই",
    "সেই", "যা", "তা", "এক",
    "একটি", "কিছু", "কোন", "করা",
    "হয়", "হবে", "ছিল", "আছে",
    "থেকে", "সঙ্গে", "দ্বারা", "জন্য",
    "মধ্যে", "উপর", "নিচে", "আগে",
    "পরে", "মত", "সাথে", "কিন্তু",
    "যদি", "তবে", "না", "নয়",
    "হয়েছে", "হয়েছিল", "করেছে", "করেছিল",
    "বলেন", "বলে", "বলা", "জানা",
    "জানায়", "দেয়", "দেওয়া", "নেয়",
    "নেওয়া"]).map String.data

/-- The stopword set selected for a resolved language. -/
def swFor (lang : String) : List Str :=
  if lang = "bn" then bangla_stopwords else english_stopwords

/-- `DocumentPreprocessor.remove_stopwords`: under `'auto'` the language is
re-detected from the first token (defaulting to English when the token list
is empty). -/
def remove_stopwords (tokens : List Str) (language : String) : List Str :=
  let sw := swFor (resolveSW language tokens)
  tokens.filter (fun t => decide (t ∉ sw))

/-- The space-joined rendering of a token sequence (`" ".join(tokens)`). -/
def joinT : List Str → Str
  | [] => []
  | [t] => t
  | t :: ts => t ++ ' ' :: joinT ts

/-- A dynamically typed Python argument: a string, or any non-string value
(which `preprocess` rejects via `isinstance`). -/
inductive PyVal where
  | str (s : Str)
  | nonStr
deriving DecidableEq

/-- `DocumentPreprocessor.preprocess`: empty or non-string input yields `[]`;
otherwise tokenize, remove stopwords (both receive the caller's original
language hint), and drop tokens of length at most 1. -/
def preprocess : PyVal → String → List Str
  | .nonStr, _ => []
  | .str s, language =>
    if s.isEmpty then []
    else
      (remove_stopwords (tokenize s language) language).filter
        (fun t => decide (1 < t.length))

/-- The character class a produced token can contain: Bangla-block
characters under the `'bn'` branch, lowercase ASCII alphanumerics under
every other branch. -/
def tokChar (lang : String) (c : Char) : Bool :=
  if lang = "bn" then isBanglaChar c
  else decide ((97 ≤ c.toNat ∧ c.toNat ≤ 122) ∨ (48 ≤ c.toNat ∧ c.toNat ≤ 57))

theorem char_ofNat_toNat {n : Nat} (h : n < 55296) : (Char.ofNat n).toNat = n := by
  unfold Char.ofNat
  rw [dif_pos (Or.inl h : n.isValidChar)]
  rfl

theorem isWS_space : isWS ' ' = true := rfl

theorem tokChar_not_WS {L : String} {c : Char} (h : tokChar L c = true) :
    isWS c = false := by
  unfold tokChar at h
  unfold isWS
  rw [decide_eq_false_iff_not]
  by_cases hL : L = "bn"
  · rw [if_pos hL] at h
    unfold isBanglaChar at h
    rw [decide_eq_true_eq] at h
    omega
  · rw [if_neg hL, decide_eq_true_eq] at h
    omega

theorem tokChar_pyLower {L : String} {c : Char} (h : tokChar L c = true) :
    pyLower c = c := by
  unfold tokChar at h
  unfold pyLower
  rw [if_neg]
  rw [decide_eq_true_iff]
  by_cases hL : L = "bn"
  · rw [if_pos hL] at h
    unfold isBanglaChar at h
    rw [decide_eq_true_eq] at h
    omega
  · rw [if_neg hL, decide_eq_true_eq] at h
    omega

theorem tokChar_allowed {L : String} {c : Char} (h : tokChar L c = true) :
    allowedChar L c = true := by
  unfold tokChar at h
  unfold allowedChar
  by_cases hL : L = "bn"
  · rw [if_pos hL] at h ⊢
    exact h
  · rw [if_neg hL] at h ⊢
    rw [decide_eq_true_eq] at h
    rw [decide_eq_true_eq]
    omega

theorem tokChar_ne_at {L : String} {c : Char} (h : tokChar L c = true) :
    c ≠ '@' := by
  intro he
  subst he
  unfold tokChar at h
  by_cases hL : L = "bn"
  · rw [if_pos hL] at h
    exact absurd h (by decide)
  · rw [if_neg hL] at h
    exact absurd h (by decide)

theorem tokChar_bangla_of {c : Char} (h : tokChar "bn" c = true) :
    isBanglaChar c = true := by
  unfold tokChar at h
  rw [if_pos rfl] at h
  exact h

theorem tokChar_not_bangla {L : String} {c : Char} (hL : L ≠ "bn")
    (h : tokChar L c = true) : isBanglaChar c = false := by
  unfold tokChar at h
  rw [if_neg hL, decide_eq_true_eq] at h
  unfold isBanglaChar
  rw [decide_eq_false_iff_not]
  omega

theorem ws_pyLower {c : Char} (h : isWS c = true) : pyLower c = c := by
  unfold isWS at h
  rw [decide_eq_true_eq] at h
  unfold pyLower
  rw [if_neg]
  rw [decide_eq_true_iff]
  omega

theorem lowered_char_tokChar (L : String) (c0 : Char)
    (h : isWS (pyLower (sfChar L c0)) = false) :
    tokChar L (pyLower (sfChar L c0)) = true := by
  unfold sfChar at h ⊢
  by_cases ha : (allowedChar L c0 || isWS c0) = true
  · rw [if_pos ha] at h ⊢
    rcases Bool.or_eq_true_iff.mp ha with hac | hws
    · by_cases hL : L = "bn"
      · have hb : isBanglaChar c0 = true := by
          unfold allowedChar at hac
          rwa [if_pos hL] at hac
        unfold isBanglaChar at hb
        rw [decide_eq_true_eq] at hb
        have hlow : pyLower c0 = c0 := by
          unfold pyLower
          rw [if_neg]
          rw [decide_eq_true_iff]
          omega
        rw [hlow]
        unfold tokChar
        rw [if_pos hL]
        unfold isBanglaChar
        rw [decide_eq_true_eq]
        omega
      · have hac2 : (97 ≤ c0.toNat ∧ c0.toNat ≤ 122) ∨ (65 ≤ c0.toNat ∧ c0.toNat ≤ 90) ∨
            (48 ≤ c0.toNat ∧ c0.toNat ≤ 57) := by
          unfold allowedChar at hac
          rwa [if_neg hL, decide_eq_true_eq] at hac
        unfold tokChar
        rw [if_neg hL, decide_eq_true_eq]
        by_cases hup : 65 ≤ c0.toNat ∧ c0.toNat ≤ 90
        · have hlow : pyLower c0 = Char.ofNat (c0.toNat + 32) := by
            unfold pyLower
            rw [if_pos]
            rw [decide_eq_true_iff]
            exact hup
          rw [hlow, char_ofNat_toNat (by omega)]
          omega
        · have hlow : pyLower c0 = c0 := by
            unfold pyLower
            rw [if_neg]
            rw [decide_eq_true_iff]
            exact hup
          rw [hlow]
          omega
    · rw [ws_pyLower hws] at h
      rw [h] at hws
      exact absurd hws (by simp)
  · rw [if_neg ha] at h
    rw [show pyLower ' ' = ' ' from rfl] at h
    rw [isWS_space] at h
    exact absurd h (by simp)

theorem preprocess_str (s : Str) (language : String) :
    preprocess (.str s) language =
      if s.isEmpty then []
      else (remove_stopwords (tokenize s language) language).filter
        (fun t => decide (1 < t.length)) := rfl

theorem preprocess_nonStr (language : String) : preprocess .nonStr language = [] := rfl

theorem splitWSAux_mem : ∀ (cs acc : Str), (∀ c ∈ acc, isWS c = false) →
    ∀ x ∈ splitWSAux cs acc, x ≠ [] ∧ ∀ c ∈ x, isWS c = false ∧ (c ∈ cs ∨ c ∈ acc) := by
  intro cs
  induction cs with
  | nil =>
    intro acc hacc x hx
    unfold splitWSAux at hx
    by_cases he : acc.isEmpty
    · rw [if_pos he] at hx
      simp at hx
    · rw [if_neg he] at hx
      simp only [List.mem_singleton] at hx
      subst hx
      refine ⟨?_, ?_⟩
      · intro hrev
        rw [List.reverse_eq_nil_iff] at hrev
        exact he (by simp [hrev])
      · intro c hc
        rw [List.mem_reverse] at hc
        exact ⟨hacc c hc, Or.inr hc⟩
  | cons c0 cs' ih =>
    intro acc hacc x hx
    unfold splitWSAux at hx
    by_cases hws : isWS c0 = true
    · rw [if_pos hws] at hx
      by_cases he : acc.isEmpty
      · rw [if_pos he] at hx
        have hres := ih [] (by simp) x hx
        refine ⟨hres.1, fun c hc => ⟨(hres.2 c hc).1, ?_⟩⟩
        rcases (hres.2 c hc).2 with h | h
        · exact Or.inl (List.mem_cons_of_mem _ h)
        · simp at h
      · rw [if_neg he] at hx
        rcases List.mem_cons.mp hx with hx | hx
        · subst hx
          refine ⟨?_, ?_⟩
          · intro hrev
            rw [List.reverse_eq_nil_iff] at hrev
            exact he (by simp [hrev])
          · intro c hc
            rw [List.mem_reverse] at hc
            exact ⟨hacc c hc, Or.inr hc⟩
        · have hres := ih [] (by simp) x hx
          refine ⟨hres.1, fun c hc => ⟨(hres.2 c hc).1, ?_⟩⟩
          rcases (hres.2 c hc).2 with h | h
          · exact Or.inl (List.mem_cons_of_mem _ h)
          · simp at h
    · rw [if_neg hws] at hx
      have hacc' : ∀ c ∈ (c0 :: acc), isWS c = false := by
        intro c hc
        rcases List.mem_cons.mp hc with h | h
        · rw [h]
          exact Bool.not_eq_true _ ▸ (by simpa using hws)
        · exact hacc c h
      have hres := ih (c0 :: acc) hacc' x hx
      refine ⟨hres.1, fun c hc => ⟨(hres.2 c hc).1, ?_⟩⟩
      rcases (hres.2 c hc).2 with h | h
      · exact Or.inl (List.mem_cons_of_mem _ h)
      · rcases List.mem_cons.mp h with h | h
        · exact Or.inl (by rw [h]; simp)
        · exact Or.inr h

theorem splitWSAux_flush : ∀ (s rest acc : Str), (∀ c ∈ s, isWS c = false) →
    splitWSAux (s ++ rest) acc = splitWSAux rest (s.reverse ++ acc) := by
  intro s
  induction s with
  | nil => intro rest acc _; simp
  | cons c s' ih =>
    intro rest acc hs
    have hc : isWS c = false := hs c (by simp)
    show splitWSAux (c :: (s' ++ rest)) acc = _
    simp only [splitWSAux]
    rw [if_neg (by simp [hc])]
    rw [ih rest (c :: acc) (fun d hd => hs d (by simp [hd]))]
    congr 1
    simp

theorem splitWS_joinT : ∀ (t : List Str),
    (∀ x ∈ t, x ≠ [] ∧ ∀ c ∈ x, isWS c = false) → splitWS (joinT t) = t := by
  intro t
  induction t with
  | nil => intro _; rfl
  | cons x ts ih =>
    intro h
    have hx := h x (by simp)
    have hxe : (x.reverse ++ ([] : Str)).isEmpty = false := by
      rw [List.append_nil]
      cases hxx : x.reverse with
      | nil => exact absurd (List.reverse_eq_nil_iff.mp hxx) hx.1
      | cons a l => rfl
    cases ts with
    | nil =>
      show splitWS (joinT [x]) = [x]
      rw [show joinT [x] = x from rfl]
      unfold splitWS
      have hfl := splitWSAux_flush x [] [] hx.2
      rw [List.append_nil] at hfl
      rw [hfl]
      unfold splitWSAux
      rw [if_neg (by rw [hxe]; simp)]
      simp
    | cons y ts' =>
      show splitWS (joinT (x :: y :: ts')) = x :: y :: ts'
      rw [show joinT (x :: y :: ts') = x ++ ' ' :: joinT (y :: ts') from rfl]
      unfold splitWS
      rw [splitWSAux_flush x _ [] hx.2]
      unfold splitWSAux
      rw [if_pos isWS_space, if_neg (by rw [hxe]; simp)]
      have htail := ih (fun v hv => h v (by simp [hv]))
      unfold splitWS at htail
      rw [htail]
      simp

theorem pyStrip_of_noWS {s : Str} (hs : ∀ c ∈ s, isWS c = false) : pyStrip s = s := by
  have hdrop : ∀ u : Str, (∀ c ∈ u, isWS c = false) →
      u.dropWhile (fun c => isWS c) = u := by
    intro u hu
    cases u with
    | nil => rfl
    | cons c cs =>
      rw [List.dropWhile_cons, if_neg (by simp [hu c (by simp)])]
  unfold pyStrip
  rw [hdrop s hs, hdrop s.reverse (fun c hc => hs c (List.mem_reverse.mp hc)),
    List.reverse_reverse]

theorem filterMap_strip (L : List Str)
    (h : ∀ w ∈ L, w ≠ [] ∧ ∀ c ∈ w, isWS c = false) :
    L.filterMap (fun w =>
      let s := pyStrip w
      if s.isEmpty then none else some s) = L := by
  induction L with
  | nil => rfl
  | cons w ws ih =>
    rw [List.filterMap_cons]
    have hw := h w (by simp)
    have hstr : pyStrip w = w := pyStrip_of_noWS hw.2
    simp only [hstr]
    rw [if_neg (by simp [hw.1])]
    rw [ih (fun v hv => h v (by simp [hv]))]

theorem tokenize_eq_splitWS (text : Str) (language : String) :
    tokenize text language = splitWS ((scriptFilter (resolveLang language text)
      (removeEmails (removeUrls text))).map pyLower) := by
  unfold tokenize
  apply filterMap_strip
  intro w hw
  have hres := splitWSAux_mem _ [] (by simp) w hw
  exact ⟨hres.1, fun c hc => (hres.2 c hc).1⟩

theorem tokenize_chars (text : Str) (language : String) :
    ∀ x ∈ tokenize text language, x ≠ [] ∧
      ∀ c ∈ x, tokChar (resolveLang language text) c = true := by
  rw [tokenize_eq_splitWS]
  intro x hx
  have hm := splitWSAux_mem _ [] (by simp) x hx
  refine ⟨hm.1, fun c hc => ?_⟩
  have hcWS : isWS c = false := (hm.2 c hc).1
  have hcs : c ∈ (scriptFilter (resolveLang language text)
      (removeEmails (removeUrls text))).map pyLower := by
    rcases (hm.2 c hc).2 with h | h
    · exact h
    · simp at h
  rw [List.mem_map] at hcs
  obtain ⟨c1, hc1, hce⟩ := hcs
  unfold scriptFilter at hc1
  rw [List.mem_map] at hc1
  obtain ⟨c0, _, hc1e⟩ := hc1
  subst hce
  subst hc1e
  exact lowered_char_tokChar _ c0 hcWS

theorem preprocess_sub (text : Str) (language : String) :
    ∀ x ∈ preprocess (.str text) language, x ∈ tokenize text language := by
  intro x hx
  rw [preprocess_str] at hx
  by_cases h : text.isEmpty
  · rw [if_pos h] at hx
    simp at hx
  · rw [if_neg h] at hx
    have h1 := (List.mem_filter.mp hx).1
    unfold remove_stopwords at h1
    exact (List.mem_filter.mp h1).1

theorem preprocess_props (text : Str) (language : String) :
    ∀ x ∈ preprocess (.str text) language,
      x ≠ [] ∧ (∀ c ∈ x, tokChar (resolveLang language text) c = true) ∧
      1 < x.length ∧
      x ∉ swFor (resolveSW language (tokenize text language)) := by
  intro x hx
  have htok := tokenize_chars text language x (preprocess_sub text language x hx)
  refine ⟨htok.1, htok.2, ?_, ?_⟩
  · rw [preprocess_str] at hx
    by_cases h : text.isEmpty
    · rw [if_pos h] at hx
      simp at hx
    · rw [if_neg h] at hx
      have h2 := (List.mem_filter.mp hx).2
      rwa [decide_eq_true_eq] at h2
  · rw [preprocess_str] at hx
    by_cases h : text.isEmpty
    · rw [if_pos h] at hx
      simp at hx
    · rw [if_neg h] at hx
      have h1 := (List.mem_filter.mp hx).1
      unfold remove_stopwords at h1
      have h2 := (List.mem_filter.mp h1).2
      rwa [decide_eq_true_eq] at h2

theorem joinT_one (x : Str) : joinT [x] = x := rfl

theorem joinT_cons2 (x y : Str) (ts : List Str) :
    joinT (x :: y :: ts) = x ++ ' ' :: joinT (y :: ts) := rfl

theorem joinT_chars : ∀ (t : List Str) (c : Char), c ∈ joinT t →
    c = ' ' ∨ ∃ x ∈ t, c ∈ x := by
  intro t
  induction t with
  | nil => intro c hc; simp [joinT] at hc
  | cons x ts ih =>
    intro c hc
    cases ts with
    | nil =>
      rw [joinT_one] at hc
      exact Or.inr ⟨x, by simp, hc⟩
    | cons y ts' =>
      rw [joinT_cons2] at hc
      rcases List.mem_append.mp hc with h | h
      · exact Or.inr ⟨x, by simp, h⟩
      · rcases List.mem_cons.mp h with h | h
        · exact Or.inl h
        · rcases ih c h with h | ⟨z, hz, hcz⟩
          · exact Or.inl h
          · exact Or.inr ⟨z, by simp [hz], hcz⟩

theorem mem_joinT : ∀ (t : List Str) (x : Str), x ∈ t → ∀ c ∈ x, c ∈ joinT t := by
  intro t
  induction t with
  | nil => intro x hx; simp at hx
  | cons z ts ih =>
    intro x hx c hc
    cases ts with
    | nil =>
      rw [joinT_one]
      rcases List.mem_cons.mp hx with h | h
      · exact h ▸ hc
      · simp at h
    | cons y ts' =>
      rw [joinT_cons2]
      rcases List.mem_cons.mp hx with h | h
      · exact List.mem_append.mpr (Or.inl (h ▸ hc))
      · exact List.mem_append.mpr (Or.inr (List.mem_cons_of_mem _ (ih x h c hc)))

theorem joinT_ne_nil : ∀ (t : List Str), t ≠ [] → (∀ x ∈ t, x ≠ []) →
    joinT t ≠ [] := by
  intro t ht hx
  cases t with
  | nil => exact absurd rfl ht
  | cons x ts =>
    cases ts with
    | nil =>
      rw [joinT_one]
      exact hx x (by simp)
    | cons y ts' =>
      rw [joinT_cons2]
      intro he
      rcases List.append_eq_nil.mp he with ⟨_, h2⟩
      simp at h2

theorem dropPat_some_iff : ∀ (p cs r : Str), dropPat p cs = some r ↔ cs = p ++ r := by
  intro p
  induction p with
  | nil =>
    intro cs r
    simp [dropPat]
  | cons a p' ih =>
    intro cs r
    cases cs with
    | nil =>
      simp [dropPat]
    | cons c cs' =>
      simp only [dropPat]
      by_cases hca : c = a
      · subst hca
        rw [if_pos rfl, ih]
        simp
      · rw [if_neg hca]
        constructor
        · intro h
          simp at h
        · intro h
          rw [List.cons_append] at h
          exact absurd (List.head_eq_of_cons_eq h) hca

theorem suffix_append_cases {u a b : Str} (h : u <:+ a ++ b) :
    u <:+ b ∨ ∃ s, s <:+ a ∧ u = s ++ b := by
  obtain ⟨w, hw⟩ := h
  rcases List.append_eq_append_iff.mp hw with ⟨a', ha1, ha2⟩ | ⟨c', hc1, hc2⟩
  · exact Or.inr ⟨a', ⟨w, ha1.symm⟩, ha2⟩
  · exact Or.inl ⟨c', hc2.symm⟩

theorem suffix_joinT_shape : ∀ (t : List Str) (u : Str), u <:+ joinT t →
    u = [] ∨ ∃ x ∈ t, ∃ s tail, u = s ++ tail ∧ s <:+ x ∧
      (tail = [] ∨ ∃ w, tail = ' ' :: w) := by
  intro t
  induction t with
  | nil =>
    intro u hu
    rw [show joinT [] = [] from rfl] at hu
    exact Or.inl (List.suffix_nil.mp hu)
  | cons x ts ih =>
    intro u hu
    cases ts with
    | nil =>
      rw [joinT_one] at hu
      exact Or.inr ⟨x, by simp, u, [], by simp, hu, Or.inl rfl⟩
    | cons y ts' =>
      rw [joinT_cons2] at hu
      rcases suffix_append_cases hu with h | ⟨s, hs, he⟩
      · rcases List.suffix_cons_iff.mp h with h | h
        · exact Or.inr ⟨x, by simp, [], u, by simp, List.nil_suffix,
            Or.inr ⟨joinT (y :: ts'), h⟩⟩
        · rcases ih u h with h0 | ⟨z, hz, s, tail, he, hsz, htail⟩
          · exact Or.inl h0
          · exact Or.inr ⟨z, by simp [hz], s, tail, he, hsz, htail⟩
      · exact Or.inr ⟨x, by simp, s, ' ' :: joinT (y :: ts'), he, hs, Or.inr ⟨_, rfl⟩⟩

theorem urlMatchAt_eq_none {cs : Str}
    (h1 : ∀ c r, cs = "http".data ++ c :: r → isWS c = true)
    (h2 : ∀ c r, cs = "www".data ++ c :: r → isWS c = true) :
    urlMatchAt cs = none := by
  unfold urlMatchAt
  cases hd : dropPat ("http".data) cs with
  | some rest =>
    have hcs : cs = "http".data ++ rest := (dropPat_some_iff _ _ _).mp hd
    cases rest with
    | nil => rfl
    | cons c r =>
      show (if isWS c = true then none
        else some ((c :: r).dropWhile (fun c => !isWS c))) = none
      rw [if_pos (h1 c r hcs)]
  | none =>
    cases he : dropPat ("www".data) cs with
    | some rest =>
      have hcs : cs = "www".data ++ rest := (dropPat_some_iff _ _ _).mp he
      cases rest with
      | nil => rfl
      | cons c r =>
        show (if isWS c = true then none
          else some ((c :: r).dropWhile (fun c => !isWS c))) = none
        rw [if_pos (h2 c r hcs)]
    | none => rfl

theorem pat_no_match {p : Str} (hpws : ∀ c ∈ p, isWS c = false)
    {x s tail : Str} (hsx : s <:+ x)
    (hx2 : ¬ List.IsInfix p x.dropLast)
    (htail : tail = [] ∨ ∃ w, tail = ' ' :: w)
    {c : Char} {r : Str} (he : s ++ tail = p ++ c :: r) : isWS c = true := by
  rcases List.append_eq_append_iff.mp he with ⟨a', ha1, ha2⟩ | ⟨c', hc1, hc2⟩
  · cases a' with
    | nil =>
      rcases htail with ht | ⟨w, ht⟩
      · rw [ht] at ha2
        simp at ha2
      · rw [ht] at ha2
        rw [List.nil_append] at ha2
        rw [List.head_eq_of_cons_eq ha2.symm]
        rfl
    | cons a a'' =>
      have hap : a ∈ p := by
        rw [ha1]
        simp
      rcases htail with ht | ⟨w, ht⟩
      · rw [ht] at ha2
        simp at ha2
      · rw [ht] at ha2
        rw [List.cons_append] at ha2
        have haeq : a = ' ' := (List.head_eq_of_cons_eq ha2.symm)
        exfalso
        have hfa := hpws a hap
        rw [haeq, isWS_space] at hfa
        exact Bool.true_eq_false.mp hfa
  · cases c' with
    | nil =>
      rcases htail with ht | ⟨w, ht⟩
      · rw [ht] at hc2
        simp at hc2
      · rw [ht, List.nil_append] at hc2
        rw [List.head_eq_of_cons_eq hc2]
        rfl
    | cons d c'' =>
      exfalso
      apply hx2
      obtain ⟨w0, hw0⟩ := hsx
      have hxe : x = (w0 ++ p) ++ d :: c'' := by
        rw [← hw0, hc1]
        simp
      refine ⟨w0, (d :: c'').dropLast, ?_⟩
      rw [hxe, List.dropLast_append_cons]

theorem urlMatchAt_none_of_token {x s tail : Str} (hsx : s <:+ x)
    (hh : ¬ List.IsInfix ("http".data) x.dropLast)
    (hw : ¬ List.IsInfix ("www".data) x.dropLast)
    (htail : tail = [] ∨ ∃ w, tail = ' ' :: w) :
    urlMatchAt (s ++ tail) = none :=
  urlMatchAt_eq_none
    (fun c r he => pat_no_match (by decide) hsx hh htail he)
    (fun c r he => pat_no_match (by decide) hsx hw htail he)

theorem removeUrlsF_id : ∀ (f : Nat) (cs : Str), cs.length ≤ f →
    (∀ n, urlMatchAt (cs.drop n) = none) → removeUrlsF f cs = cs := by
  intro f
  induction f with
  | zero =>
    intro cs h _
    rw [List.length_eq_zero.mp (Nat.le_zero.mp h)]
    rfl
  | succ f' ih =>
    intro cs h hno
    cases cs with
    | nil => rfl
    | cons c cs' =>
      have h0 := hno 0
      rw [List.drop_zero] at h0
      unfold removeUrlsF
      rw [h0]
      rw [ih cs' (by simpa using h) (fun n => by
        have := hno (n + 1)
        rwa [List.drop_succ_cons] at this)]

theorem removeUrls_id {cs : Str} (h : ∀ n, urlMatchAt (cs.drop n) = none) :
    removeUrls cs = cs :=
  removeUrlsF_id cs.length cs le_rfl h

theorem removeUrls_joinT (t : List Str)
    (hpat : ∀ x ∈ t, ¬ List.IsInfix ("http".data) x.dropLast ∧
      ¬ List.IsInfix ("www".data) x.dropLast) :
    removeUrls (joinT t) = joinT t := by
  apply removeUrls_id
  intro n
  rcases suffix_joinT_shape t _ (List.drop_suffix n _) with h0 | ⟨x, hx, s, tail, he, hsx, htail⟩
  · rw [h0]
    rfl
  · rw [he]
    exact urlMatchAt_none_of_token hsx (hpat x hx).1 (hpat x hx).2 htail

theorem emitRun_of_no_at {run : Str} (h : ∀ c ∈ run, c ≠ '@') : emitRun run = run := by
  unfold emitRun emailRunMatch
  rw [if_neg]
  intro hc
  have hm : '@' ∈ (run.drop 1).dropLast := by
    have := List.contains_eq_any_beq (run.drop 1).dropLast '@'
    rw [this] at hc
    rcases List.any_eq_true.mp hc with ⟨a, ha, hab⟩
    rw [show (('@' : Char) == a) = decide ('@' = a) from rfl, decide_eq_true_eq] at hab
    rwa [← hab] at ha
  exact h '@' (List.drop_subset _ _ (List.dropLast_subset _ hm)) rfl

theorem removeEmailsAux_flush : ∀ (s tail acc : Str), (∀ c ∈ s, isWS c = false) →
    removeEmailsAux (s ++ tail) acc = removeEmailsAux tail (s.reverse ++ acc) := by
  intro s
  induction s with
  | nil => intro tail acc _; simp
  | cons c s' ih =>
    intro tail acc hs
    have hc : isWS c = false := hs c (by simp)
    show removeEmailsAux (c :: (s' ++ tail)) acc = _
    simp only [removeEmailsAux]
    rw [if_neg (by simp [hc])]
    rw [ih tail (c :: acc) (fun d hd => hs d (by simp [hd]))]
    congr 1
    simp

theorem removeEmails_joinT : ∀ (t : List Str),
    (∀ x ∈ t, x ≠ [] ∧ ∀ c ∈ x, isWS c = false) →
    (∀ x ∈ t, ∀ c ∈ x, c ≠ '@') →
    removeEmails (joinT t) = joinT t := by
  intro t
  induction t with
  | nil => intro _ _; rfl
  | cons x ts ih =>
    intro hwf hat
    have hx := hwf x (by simp)
    have hxa := hat x (by simp)
    cases ts with
    | nil =>
      rw [joinT_one]
      unfold removeEmails
      have hfl := removeEmailsAux_flush x [] [] hx.2
      rw [List.append_nil] at hfl
      rw [hfl]
      simp only [removeEmailsAux]
      rw [List.append_nil, List.reverse_reverse]
      exact emitRun_of_no_at hxa
    | cons y ts' =>
      rw [joinT_cons2]
      unfold removeEmails
      rw [removeEmailsAux_flush x _ [] hx.2]
      simp only [removeEmailsAux]
      rw [if_pos isWS_space]
      have htail := ih (fun v hv => hwf v (by simp [hv])) (fun v hv => hat v (by simp [hv]))
      unfold removeEmails at htail
      rw [htail]
      rw [List.append_nil, List.reverse_reverse]
      rw [emitRun_of_no_at hxa]

section AssocList

variable {κ ν : Type} [DecidableEq κ]

/-- Keys of an association list (Python dict, in insertion order). -/
def keys (m : List (κ × ν)) : List κ := m.map Prod.fst

/-- First-match lookup with a default (Python `dict.get(k, d)`). -/
def lookupD (m : List (κ × ν)) (k : κ) (d : ν) : ν :=
  match m with
  | [] => d
  | (k', v) :: rest => if k = k' then v else lookupD rest k d

/-- First-match lookup (Python `m[k]`, `none` modelling a `KeyError`). -/
def lookupOpt (m : List (κ × ν)) (k : κ) : Option ν :=
  match m with
  | [] => none
  | (k', v) :: rest => if k = k' then some v else lookupOpt rest k

/-- Update the value at a key in place, or append `(k, f d)` when the key is
absent: the mutation pattern of `m[k] = f(m.get(k, d))` on a Python dict,
which keeps insertion order for existing keys and appends new keys. -/
def upsert (m : List (κ × ν)) (k : κ) (d : ν) (f : ν → ν) : List (κ × ν) :=
  match m with
  | [] => [(k, f d)]
  | (k', v) :: rest => if k = k' then (k', f v) :: rest else (k', v) :: upsert rest k d f

end AssocList

/-- Sum of the values of an association list (`sum(m.values())` once keys
are unique). -/
def sumValues {κ : Type} (m : List (κ × Nat)) : Nat := (m.map Prod.snd).sum

/-- Document metadata, as stored by `InvertedIndex.add_document` and read
back by `BM25Retriever.search`. -/
structure Metadata where
  title : Str
  url : Str
  language : String
deriving DecidableEq, Inhabited

/-- The `InvertedIndex` class: term postings, per-document lengths, document
count, average length (a float in the source, but always carrying an exact
rational value), per-term document frequencies and per-document metadata. -/
structure InvertedIndex where
  index : List (Str × List (String × Nat))
  doc_lengths : List (String × Nat)
  doc_count : Nat
  avg_doc_length : ℚ
  term_doc_freq : List (Str × Nat)
  documents : List (String × Metadata)
deriving DecidableEq

/-- `InvertedIndex.__init__`: everything empty, statistics zero. -/
def emptyIndex : InvertedIndex := ⟨[], [], 0, 0, [], []⟩

/-- Per-document term frequencies, in first-occurrence order: the
`defaultdict(int)` loop at the start of `add_document`. -/
def countTokens (tokens : List Str) : List (Str × Nat) :=
  tokens.foldl (fun m t => upsert m t 0 (· + 1)) []

/-- `InvertedIndex.add_document`: append a posting `(doc_id, freq)` for each
distinct term of `tokens`, bump that term's document frequency, record the
document's length and metadata, and increment the document count. -/
def add_document (idx : InvertedIndex) (doc_id : String) (tokens : List Str)
    (metadata : Metadata) : InvertedIndex :=
  let tf := countTokens tokens
  { index := tf.foldl (fun ix p => upsert ix p.1 [] (· ++ [(doc_id, p.2)])) idx.index
    term_doc_freq := tf.foldl (fun m p => upsert m p.1 0 (· + 1)) idx.term_doc_freq
    doc_lengths := upsert idx.doc_lengths doc_id 0 (fun _ => tokens.length)
    doc_count := idx.doc_count + 1
    avg_doc_length := idx.avg_doc_length
    documents := upsert idx.documents doc_id ⟨[], [], ""⟩ (fun _ => metadata) }

/-- `InvertedIndex.finalize`: compute the average document length; a
document count of zero leaves the initial value 0 untouched. -/
def finalize (idx : InvertedIndex) : InvertedIndex :=
  if 0 < idx.doc_count then
    { idx with avg_doc_length := (sumValues idx.doc_lengths : ℚ) / (idx.doc_count : ℚ) }
  else idx

/-- `InvertedIndex.get_postings`: `self.index.get(term, [])`. -/
def get_postings (idx : InvertedIndex) (term : Str) : List (String × Nat) :=
  lookupD idx.index term []

/-- `InvertedIndex.get_document_frequency`: `self.term_doc_freq.get(term, 0)`. -/
def get_document_frequency (idx : InvertedIndex) (term : Str) : Nat :=
  lookupD idx.term_doc_freq term 0

/-- A sequence of `add_document` calls, as performed by the build phase. -/
def addDocs (idx : InvertedIndex) (docs : List (String × List Str × Metadata)) :
    InvertedIndex :=
  docs.foldl (fun i d => add_document i d.1 d.2.1 d.2.2) idx

/-- The data written to disk by `InvertedIndex.save`: a snapshot of the six
fields (the pickle byte format itself is an implementation detail outside
the model). -/
structure SavedIndex where
  index : List (Str × List (String × Nat))
  doc_lengths : List (String × Nat)
  doc_count : Nat
  avg_doc_length : ℚ
  term_doc_freq : List (Str × Nat)
  documents : List (String × Metadata)

/-- `InvertedIndex.save`. -/
def save (idx : InvertedIndex) : SavedIndex :=
  ⟨idx.index, idx.doc_lengths, idx.doc_count, idx.avg_doc_length,
   idx.term_doc_freq, idx.documents⟩

/-- `InvertedIndex.load`: rebuild an index from the stored fields (wrapping
the two dicts back into `defaultdict`s preserves their contents). -/
def load (d : SavedIndex) : InvertedIndex :=
  ⟨d.index, d.doc_lengths, d.doc_count, d.avg_doc_length, d.term_doc_freq, d.documents⟩

/-- The `BM25Retriever` class: the tunables `k1` and `b` and the optional
loaded index (`self.index is None` before `load_index`). -/
structure BM25Retriever where
  k1 : ℝ
  b : ℝ
  index : Option InvertedIndex

/-- `BM25Retriever.compute_idf`: 0 for a missing index or an unseen term,
`ln((N - df + 0.5)/(df + 0.5) + 1.0)` otherwise. -/
noncomputable def compute_idf (r : BM25Retriever) (term : Str) : ℝ :=
  match r.index with
  | none => 0
  | some idx =>
    let N := idx.doc_count
    let df := get_document_frequency idx term
    if df = 0 then 0
    else Real.log (((N : ℝ) - (df : ℝ) + 0.5) / ((df : ℝ) + 0.5) + 1.0)

/-- First-match term frequency of `doc_id` in a posting list: the
`for posting_doc_id, freq in postings: ... break` loop of
`compute_bm25_score`, with `tf = 0` when no posting matches. -/
def tfIn (postings : List (String × Nat)) (doc_id : String) : Nat :=
  match postings with
  | [] => 0
  | (p, f) :: rest => if p = doc_id then f else tfIn rest doc_id

/-- The scoring loop of `compute_bm25_score`.  A term with `idf == 0` or
`tf == 0` is skipped (`continue`); otherwise the BM25 component is added.
`none` models the `ZeroDivisionError` raised by `doc_length / avgdl` when
the average document length is still 0 (index not finalized). -/
noncomputable def bm25Loop (r : BM25Retriever) (idx : InvertedIndex) (doc_id : String)
    (docLen : Nat) : List Str → ℝ → Option ℝ
  | [], acc => some acc
  | term :: rest, acc =>
    let idf := compute_idf r term
    if idf = 0 then bm25Loop r idx doc_id docLen rest acc
    else
      let tf := tfIn (get_postings idx term) doc_id
      if tf = 0 then bm25Loop r idx doc_id docLen rest acc
      else if idx.avg_doc_length = 0 then none
      else bm25Loop r idx doc_id docLen rest
        (acc + idf * (((tf : ℝ) * (r.k1 + 1)) /
          ((tf : ℝ) + r.k1 * (1 - r.b + r.b * ((docLen : ℝ) / ((idx.avg_doc_length : ℚ) : ℝ))))))

/-- `BM25Retriever.compute_bm25_score`: 0 for a missing index or a document
of length 0, otherwise the scoring loop over the query terms. -/
noncomputable def compute_bm25_score (r : BM25Retriever) (query_terms : List Str)
    (doc_id : String) : Option ℝ :=
  match r.index with
  | none => some 0
  | some idx =>
    let docLen := lookupD idx.doc_lengths doc_id 0
    if docLen = 0 then some 0
    else bm25Loop r idx doc_id docLen query_terms 0

/-- The Python exceptions `search` can raise: `ValueError` for a missing
index, `ZeroDivisionError` from scoring, `KeyError` from the metadata
lookup `self.index.documents[doc_id]`. -/
inductive SearchError where
  | indexNotLoaded
  | zeroDivision
  | keyError
deriving DecidableEq

/-- One entry of `scored_docs` inside `search`. -/
structure ScoredDoc where
  doc_id : String
  score : ℝ
  title : Str
  url : Str
  language : String

/-- A returned result: a scored document with the confidence annotation
added after truncation to `top_k`. -/
structure ResultEntry extends ScoredDoc where
  confidence : ℝ
  caution : Bool

/-- The dictionary returned by `search` (timing information omitted). -/
structure SearchResult where
  query_terms : List Str
  results : List ResultEntry
  total_results : Nat

/-- The comparison used by `scored_docs.sort(key=..., reverse=True)`:
descending by score; Python's sort is stable, which `List.mergeSort` with
this relation reproduces. -/
noncomputable def scoreLE (a b : ScoredDoc) : Bool :=
  @decide (b.score ≤ a.score) (Classical.propDecidable _)

/-- The candidate scoring loop of `search`: score each candidate, keep those
with a strictly positive score, read their metadata (raising `KeyError`
when absent). -/
noncomputable def scoreCandidates (r : BM25Retriever) (idx : InvertedIndex)
    (qts : List Str) : List String → Except SearchError (List ScoredDoc)
  | [] => .ok []
  | d :: rest =>
    match compute_bm25_score r qts d with
    | none => .error .zeroDivision
    | some s =>
      if 0 < s then
        match lookupOpt idx.documents d with
        | none => .error .keyError
        | some md =>
          match scoreCandidates r idx qts rest with
          | .ok l => .ok (⟨d, s, md.title, md.url, md.language⟩ :: l)
          | .error e => .error e
      else scoreCandidates r idx qts rest

/-- The confidence annotation on the truncated results: confidence is the
score divided by the top score (0 when the top score is not positive), and
`caution` flags confidence below 0.3. -/
noncomputable def annotate (top : List ScoredDoc) : List ResultEntry :=
  match top with
  | [] => []
  | first :: _ =>
    top.map (fun sd =>
      let conf : ℝ := if 0 < first.score then sd.score / first.score else 0
      ⟨sd, conf, @decide (conf < 3 / 10) (Classical.propDecidable _)⟩)

/-- The body of `search` after candidate collection, parametrized by the
enumeration `cands` of the candidate set: Python iterates `candidate_docs`,
a `set`, whose iteration order is unspecified (hash-based), so every
enumeration of the set is an admissible behaviour. -/
noncomputable def searchCore (r : BM25Retriever) (idx : InvertedIndex) (qts : List Str)
    (top_k : Nat) (cands : List String) : Except SearchError SearchResult :=
  match scoreCandidates r idx qts cands with
  | .error e => .error e
  | .ok scored =>
    let sorted := scored.mergeSort scoreLE
    let top := sorted.take top_k
    .ok ⟨qts, annotate top, scored.length⟩

/-- First-occurrence deduplication worker. -/
def dedupAux : List String → List String → List String
  | [], _ => []
  | x :: xs, seen => if x ∈ seen then dedupAux xs seen else x :: dedupAux xs (x :: seen)

/-- First-occurrence deduplication: one concrete enumeration of the
candidate set (used to instantiate `searchCore` in `search`). -/
def dedupFirst (l : List String) : List String := dedupAux l []

/-- The candidate document ids of a query: every document id appearing in
some query term's posting list, deduplicated in first-encounter order. -/
def candList (idx : InvertedIndex) (qts : List Str) : List String :=
  dedupFirst ((qts.map (fun t => (get_postings idx t).map Prod.fst)).flatten)

/-- Membership in the candidate set of `search`. -/
def isCandidate (idx : InvertedIndex) (qts : List Str) (d : String) : Prop :=
  ∃ t ∈ qts, ∃ f, (d, f) ∈ get_postings idx t

/-- `BM25Retriever.search`: raise `ValueError` when no index is loaded,
return an empty result set for an empty preprocessed query, and otherwise
score the candidate set. -/
noncomputable def search (r : BM25Retriever) (query : Str) (top_k : Nat)
    (language : String) : Except SearchError SearchResult :=
  match r.index with
  | none => .error .indexNotLoaded
  | some idx =>
    let qts := preprocess (.str query) language
    if qts.isEmpty then .ok ⟨qts, [], 0⟩
    else searchCore r idx qts top_k (candList idx qts)

section AssocLemmas

variable {κ ν : Type} [DecidableEq κ]

theorem lookupD_upsert (m : List (κ × ν)) (k : κ) (d : ν) (f : ν → ν) (d' : ν) :
    lookupD (upsert m k d f) k d' = f (lookupD m k d) := by
  induction m with
  | nil => simp [upsert, lookupD]
  | cons hd tl ih =>
    obtain ⟨k', v⟩ := hd
    by_cases h : k = k' <;> simp [upsert, lookupD, h, ih]

theorem lookupD_upsert_ne (m : List (κ × ν)) {k k' : κ} (d : ν) (f : ν → ν) (d' : ν)
    (h : k' ≠ k) : lookupD (upsert m k d f) k' d' = lookupD m k' d' := by
  induction m with
  | nil => simp [upsert, lookupD, h]
  | cons hd tl ih =>
    obtain ⟨a, v⟩ := hd
    by_cases hk : k = a
    · subst hk
      simp [upsert, lookupD, h]
    · by_cases hk' : k' = a <;> simp [upsert, lookupD, hk, hk', ih]

theorem mem_keys_upsert (m : List (κ × ν)) (k : κ) (d : ν) (f : ν → ν) (k' : κ) :
    k' ∈ keys (upsert m k d f) ↔ k' ∈ keys m ∨ k' = k := by
  induction m with
  | nil => simp [upsert, keys]
  | cons hd tl ih =>
    obtain ⟨a, v⟩ := hd
    by_cases hk : k = a
    · subst hk
      simp [upsert, keys]
      try tauto
    · simp only [upsert, if_neg hk, keys, List.map_cons, List.mem_cons]
      have h2 := ih
      simp only [keys] at h2
      rw [h2]
      tauto

theorem keys_upsert_of_mem (m : List (κ × ν)) {k : κ} (d : ν) (f : ν → ν)
    (h : k ∈ keys m) : keys (upsert m k d f) = keys m := by
  induction m with
  | nil => simp [keys] at h
  | cons hd tl ih =>
    obtain ⟨a, v⟩ := hd
    by_cases hk : k = a
    · subst hk
      simp [upsert, keys]
    · simp only [keys, List.map_cons, List.mem_cons] at h
      rcases h with h | h
      · exact absurd h hk
      · simpa [upsert, keys, hk] using ih h

theorem keys_upsert_of_not_mem (m : List (κ × ν)) {k : κ} (d : ν) (f : ν → ν)
    (h : k ∉ keys m) : keys (upsert m k d f) = keys m ++ [k] := by
  induction m with
  | nil => simp [upsert, keys]
  | cons hd tl ih =>
    obtain ⟨a, v⟩ := hd
    simp only [keys, List.map_cons, List.mem_cons] at h
    push_neg at h
    simpa [upsert, keys, h.1] using ih h.2

theorem nodup_keys_upsert (m : List (κ × ν)) (k : κ) (d : ν) (f : ν → ν)
    (h : (keys m).Nodup) : (keys (upsert m k d f)).Nodup := by
  by_cases hk : k ∈ keys m
  · rwa [keys_upsert_of_mem m d f hk]
  · rw [keys_upsert_of_not_mem m d f hk]
    simpa [List.nodup_append] using ⟨h, hk⟩

theorem lookupD_of_not_mem (m : List (κ × ν)) {k : κ} (d : ν) (h : k ∉ keys m) :
    lookupD m k d = d := by
  induction m with
  | nil => rfl
  | cons hd tl ih =>
    obtain ⟨a, v⟩ := hd
    simp only [keys, List.map_cons, List.mem_cons] at h
    push_neg at h
    simp [lookupD, h.1, ih h.2]

theorem lookupOpt_of_mem (m : List (κ × ν)) {k : κ} (h : k ∈ keys m) :
    ∃ v, lookupOpt m k = some v := by
  induction m with
  | nil => simp [keys] at h
  | cons hd tl ih =>
    obtain ⟨a, v⟩ := hd
    by_cases hk : k = a
    · exact ⟨v, by simp [lookupOpt, hk]⟩
    · simp only [keys, List.map_cons, List.mem_cons] at h
      rcases h with h | h
      · exact absurd h hk
      · obtain ⟨w, hw⟩ := ih h
        exact ⟨w, by simp [lookupOpt, hk, hw]⟩

theorem lookupD_le_sumValues (m : List (κ × Nat)) {k : κ} (h : k ∈ keys m) :
    lookupD m k 0 ≤ sumValues m := by
  induction m with
  | nil => simp [keys] at h
  | cons hd tl ih =>
    obtain ⟨a, v⟩ := hd
    by_cases hk : k = a
    · simp [lookupD, hk, sumValues]
    · simp only [keys, List.map_cons, List.mem_cons] at h
      rcases h with h | h
      · exact absurd h hk
      · calc lookupD ((a, v) :: tl) k 0 = lookupD tl k 0 := by simp [lookupD, hk]
          _ ≤ sumValues tl := ih h
          _ ≤ sumValues ((a, v) :: tl) := by simp [sumValues]

end AssocLemmas

theorem lookupD_foldl_count (tks : List Str) (m0 : List (Str × Nat)) (t : Str) :
    lookupD (tks.foldl (fun m x => upsert m x 0 (· + 1)) m0) t 0 =
      lookupD m0 t 0 + tks.count t := by
  induction tks generalizing m0 with
  | nil => simp
  | cons x xs ih =>
    simp only [List.foldl_cons, ih]
    by_cases hx : t = x
    · subst hx
      rw [lookupD_upsert]
      simp [List.count_cons]
      omega
    · rw [lookupD_upsert_ne _ _ _ _ hx]
      simp [List.count_cons, hx]

theorem lookupD_countTokens (tks : List Str) (t : Str) :
    lookupD (countTokens tks) t 0 = tks.count t := by
  simpa [lookupD] using lookupD_foldl_count tks [] t

theorem mem_keys_foldl_count (tks : List Str) (m0 : List (Str × Nat)) (t : Str) :
    t ∈ keys (tks.foldl (fun m x => upsert m x 0 (· + 1)) m0) ↔
      t ∈ keys m0 ∨ t ∈ tks := by
  induction tks generalizing m0 with
  | nil => simp
  | cons x xs ih =>
    simp only [List.foldl_cons, ih, mem_keys_upsert, List.mem_cons]
    tauto

theorem mem_keys_countTokens (tks : List Str) (t : Str) :
    t ∈ keys (countTokens tks) ↔ t ∈ tks := by
  simpa [countTokens, keys] using mem_keys_foldl_count tks [] t

theorem nodup_keys_foldl_count (tks : List Str) (m0 : List (Str × Nat))
    (h : (keys m0).Nodup) :
    (keys (tks.foldl (fun m x => upsert m x 0 (· + 1)) m0)).Nodup := by
  induction tks generalizing m0 with
  | nil => exact h
  | cons x xs ih => exact ih _ (nodup_keys_upsert _ _ _ _ h)

theorem nodup_keys_countTokens (tks : List Str) : (keys (countTokens tks)).Nodup := by
  simpa [countTokens] using nodup_keys_foldl_count tks [] (by simp [keys])

theorem lookupD_foldPost (did : String) (L : List (Str × Nat))
    (hnd : (keys L).Nodup) (ix0 : List (Str × List (String × Nat))) (t : Str) :
    lookupD (L.foldl (fun ix p => upsert ix p.1 [] (· ++ [(did, p.2)])) ix0) t [] =
      if t ∈ keys L then lookupD ix0 t [] ++ [(did, lookupD L t 0)]
      else lookupD ix0 t [] := by
  induction L generalizing ix0 with
  | nil => simp [keys]
  | cons hd tl ih =>
    obtain ⟨a, v⟩ := hd
    simp only [keys, List.map_cons, List.nodup_cons] at hnd
    by_cases ht : t = a
    · subst ht
      have hnot : t ∉ keys tl := by simpa [keys] using hnd.1
      simp only [List.foldl_cons]
      rw [ih hnd.2, if_neg hnot, lookupD_upsert]
      simp [keys, lookupD]
    · simp only [List.foldl_cons]
      rw [ih hnd.2, lookupD_upsert_ne _ _ _ _ ht]
      have hmem : (t ∈ keys ((a, v) :: tl)) ↔ t ∈ keys tl := by simp [keys, ht]
      by_cases h : t ∈ keys tl
      · rw [if_pos h, if_pos (hmem.mpr h)]
        simp [lookupD, ht]
      · rw [if_neg h, if_neg (fun hh => h (hmem.mp hh))]

theorem mem_keys_foldPost (did : String) (L : List (Str × Nat))
    (ix0 : List (Str × List (String × Nat))) (t : Str) :
    t ∈ keys (L.foldl (fun ix p => upsert ix p.1 [] (· ++ [(did, p.2)])) ix0) ↔
      t ∈ keys ix0 ∨ t ∈ keys L := by
  induction L generalizing ix0 with
  | nil => simp [keys]
  | cons hd tl ih =>
    obtain ⟨a, v⟩ := hd
    simp only [List.foldl_cons]
    rw [ih, mem_keys_upsert]
    simp only [keys, List.map_cons, List.mem_cons]
    tauto

theorem lookupD_foldTdf (L : List (Str × Nat)) (hnd : (keys L).Nodup)
    (m0 : List (Str × Nat)) (t : Str) :
    lookupD (L.foldl (fun m p => upsert m p.1 0 (· + 1)) m0) t 0 =
      lookupD m0 t 0 + (if t ∈ keys L then 1 else 0) := by
  induction L generalizing m0 with
  | nil => simp [keys]
  | cons hd tl ih =>
    obtain ⟨a, v⟩ := hd
    simp only [keys, List.map_cons, List.nodup_cons] at hnd
    by_cases ht : t = a
    · subst ht
      have hnot : t ∉ keys tl := by simpa [keys] using hnd.1
      simp only [List.foldl_cons]
      rw [ih hnd.2, if_neg hnot, lookupD_upsert]
      simp [keys]
    · simp only [List.foldl_cons]
      rw [ih hnd.2, lookupD_upsert_ne _ _ _ _ ht]
      have hmem : (t ∈ keys ((a, v) :: tl)) ↔ t ∈ keys tl := by simp [keys, ht]
      simp [hmem]

theorem get_postings_add (idx : InvertedIndex) (did : String) (tks : List Str)
    (meta : Metadata) (t : Str) :
    get_postings (add_document idx did tks meta) t =
      if t ∈ tks then get_postings idx t ++ [(did, tks.count t)]
      else get_postings idx t := by
  unfold get_postings add_document
  simp only
  rw [lookupD_foldPost did (countTokens tks) (nodup_keys_countTokens tks)]
  simp only [mem_keys_countTokens, lookupD_countTokens]

theorem gdf_add (idx : InvertedIndex) (did : String) (tks : List Str)
    (meta : Metadata) (t : Str) :
    get_document_frequency (add_document idx did tks meta) t =
      get_document_frequency idx t + (if t ∈ tks then 1 else 0) := by
  unfold get_document_frequency add_document
  simp only
  rw [lookupD_foldTdf (countTokens tks) (nodup_keys_countTokens tks)]
  simp only [mem_keys_countTokens]

theorem mem_keys_index_add (idx : InvertedIndex) (did : String) (tks : List Str)
    (meta : Metadata) (t : Str) :
    t ∈ keys (add_document idx did tks meta).index ↔ t ∈ keys idx.index ∨ t ∈ tks := by
  unfold add_document
  simp only
  rw [mem_keys_foldPost, mem_keys_countTokens]

theorem doc_count_add (idx : InvertedIndex) (did : String) (tks : List Str)
    (meta : Metadata) : (add_document idx did tks meta).doc_count = idx.doc_count + 1 := rfl

theorem avg_add (idx : InvertedIndex) (did : String) (tks : List Str)
    (meta : Metadata) :
    (add_document idx did tks meta).avg_doc_length = idx.avg_doc_length := rfl

theorem doc_lengths_add (idx : InvertedIndex) (did : String) (tks : List Str)
    (meta : Metadata) :
    (add_document idx did tks meta).doc_lengths =
      upsert idx.doc_lengths did 0 (fun _ => tks.length) := rfl

theorem documents_add (idx : InvertedIndex) (did : String) (tks : List Str)
    (meta : Metadata) :
    (add_document idx did tks meta).documents =
      upsert idx.documents did ⟨[], [], ""⟩ (fun _ => meta) := rfl

/-- Length bound for a duplicate-free list included in another list. -/
theorem nodup_subset_length {α : Type} [DecidableEq α] {l1 l2 : List α}
    (h : l1.Nodup) (hs : l1 ⊆ l2) : l1.length ≤ l2.length :=
  calc l1.length = l1.toFinset.card := (List.toFinset_card_of_nodup h).symm
    _ ≤ l2.toFinset.card := Finset.card_le_card (fun x hx => by
        simp only [List.mem_toFinset] at *
        exact hs hx)
    _ ≤ l2.length := l2.toFinset_card_le

/-- Structural invariant of every index reachable by `add_document` calls
with pairwise-distinct document ids starting from the empty index. -/
structure Inv (idx : InvertedIndex) : Prop where
  nodupLen : (keys idx.doc_lengths).Nodup
  docsKeys : keys idx.documents = keys idx.doc_lengths
  postSub : ∀ t p, p ∈ get_postings idx t → p.1 ∈ keys idx.doc_lengths
  postNodup : ∀ t, ((get_postings idx t).map Prod.fst).Nodup
  dfLen : ∀ t, get_document_frequency idx t = (get_postings idx t).length
  freqPos : ∀ t p, p ∈ get_postings idx t → 1 ≤ p.2
  lenPos : ∀ t p, p ∈ get_postings idx t → 1 ≤ lookupD idx.doc_lengths p.1 0
  countEq : idx.doc_count = (keys idx.doc_lengths).length
  keysPost : ∀ t, t ∈ keys idx.index → get_postings idx t ≠ []

theorem get_postings_empty (t : Str) : get_postings emptyIndex t = [] := rfl

theorem inv_empty : Inv emptyIndex := by
  constructor <;> simp [emptyIndex, keys, get_postings, get_document_frequency, lookupD]

theorem inv_add {idx : InvertedIndex} (h : Inv idx) {did : String}
    (hdid : did ∉ keys idx.doc_lengths) (tks : List Str) (meta : Metadata) :
    Inv (add_document idx did tks meta) := by
  have hdocs : did ∉ keys idx.documents := by rw [h.docsKeys]; exact hdid
  have hpost : ∀ t p, p ∈ get_postings idx t → p.1 ≠ did := fun t p hp he =>
    hdid (he ▸ h.postSub t p hp)
  constructor
  case nodupLen =>
    rw [doc_lengths_add, keys_upsert_of_not_mem _ _ _ hdid]
    simpa [List.nodup_append] using ⟨h.nodupLen, hdid⟩
  case docsKeys =>
    rw [doc_lengths_add, documents_add, keys_upsert_of_not_mem _ _ _ hdid,
        keys_upsert_of_not_mem _ _ _ hdocs, h.docsKeys]
  case postSub =>
    intro t p hp
    rw [doc_lengths_add]
    rw [get_postings_add] at hp
    rw [mem_keys_upsert]
    by_cases ht : t ∈ tks
    · rw [if_pos ht] at hp
      rcases List.mem_append.mp hp with hp | hp
      · exact Or.inl (h.postSub t p hp)
      · simp only [List.mem_singleton] at hp
        exact Or.inr (by rw [hp])
    · rw [if_neg ht] at hp
      exact Or.inl (h.postSub t p hp)
  case postNodup =>
    intro t
    rw [get_postings_add]
    by_cases ht : t ∈ tks
    · rw [if_pos ht]
      rw [List.map_append]
      simp only [List.map_cons, List.map_nil]
      rw [List.nodup_append]
      refine ⟨h.postNodup t, List.nodup_singleton _, ?_⟩
      intro a ha hb
      simp only [List.mem_singleton] at hb
      obtain ⟨p, hp, hpa⟩ := List.mem_map.mp ha
      exact hpost t p hp (hpa.trans hb)
    · rw [if_neg ht]
      exact h.postNodup t
  case dfLen =>
    intro t
    rw [gdf_add, get_postings_add, h.dfLen t]
    by_cases ht : t ∈ tks <;> simp [ht]
  case freqPos =>
    intro t p hp
    rw [get_postings_add] at hp
    by_cases ht : t ∈ tks
    · rw [if_pos ht] at hp
      rcases List.mem_append.mp hp with hp | hp
      · exact h.freqPos t p hp
      · simp only [List.mem_singleton] at hp
        rw [hp]
        simpa [Nat.succ_le_iff, List.count_pos_iff] using ht
    · rw [if_neg ht] at hp
      exact h.freqPos t p hp
  case lenPos =>
    intro t p hp
    rw [get_postings_add] at hp
    rw [doc_lengths_add]
    by_cases hpd : p.1 = did
    · rw [hpd, lookupD_upsert]
      have htks : tks ≠ [] := by
        by_cases ht : t ∈ tks
        · exact fun he => by simp [he] at ht
        · rw [if_neg ht] at hp
          exact absurd hpd (hpost t p hp)
      simpa [Nat.succ_le_iff, List.length_pos] using htks
    · rw [lookupD_upsert_ne _ _ _ _ hpd]
      by_cases ht : t ∈ tks
      · rw [if_pos ht] at hp
        rcases List.mem_append.mp hp with hp | hp
        · exact h.lenPos t p hp
        · simp only [List.mem_singleton] at hp
          exact absurd (by rw [hp]) hpd
      · rw [if_neg ht] at hp
        exact h.lenPos t p hp
  case countEq =>
    rw [doc_count_add, doc_lengths_add, keys_upsert_of_not_mem _ _ _ hdid]
    simp [h.countEq]
  case keysPost =>
    intro t ht
    rw [get_postings_add]
    rw [mem_keys_index_add] at ht
    by_cases htk : t ∈ tks
    · simp [htk]
    · rw [if_neg htk]
      rcases ht with ht | ht
      · exact h.keysPost t ht
      · exact absurd ht htk

theorem inv_addDocs :
    ∀ (docs : List (String × List Str × Metadata)) (idx : InvertedIndex),
    Inv idx → (docs.map Prod.fst).Nodup →
    (∀ d ∈ docs.map Prod.fst, d ∉ keys idx.doc_lengths) →
    Inv (addDocs idx docs) ∧
      keys (addDocs idx docs).doc_lengths = keys idx.doc_lengths ++ docs.map Prod.fst := by
  intro docs
  induction docs with
  | nil => intro idx h _ _; exact ⟨h, by simp [addDocs]⟩
  | cons doc rest ih =>
    intro idx h hnd hfresh
    obtain ⟨did, tks, meta⟩ := doc
    simp only [List.map_cons, List.nodup_cons] at hnd
    have hdid : did ∉ keys idx.doc_lengths := hfresh did (by
      simp only [List.map_cons, List.mem_cons]
      exact Or.inl trivial)
    have h' : Inv (add_document idx did tks meta) := inv_add h hdid tks meta
    have hkeys : keys (add_document idx did tks meta).doc_lengths =
        keys idx.doc_lengths ++ [did] := by
      rw [doc_lengths_add, keys_upsert_of_not_mem _ _ _ hdid]
    have hfresh' : ∀ d ∈ rest.map Prod.fst,
        d ∉ keys (add_document idx did tks meta).doc_lengths := by
      intro d hdm
      rw [hkeys]
      simp only [List.mem_append, List.mem_singleton]
      rintro (hk | hk)
      · exact hfresh d (by
          simp only [List.map_cons, List.mem_cons]
          exact Or.inr hdm) hk
      · exact hnd.1 (hk ▸ hdm)
    have hres := ih (add_document idx did tks meta) h' hnd.2 hfresh'
    refine ⟨hres.1, ?_⟩
    have : addDocs idx ((did, tks, meta) :: rest) =
        addDocs (add_document idx did tks meta) rest := rfl
    rw [this, hres.2, hkeys]
    simp

theorem inv_build (docs : List (String × List Str × Metadata))
    (hnd : (docs.map Prod.fst).Nodup) :
    Inv (addDocs emptyIndex docs) ∧
      keys (addDocs emptyIndex docs).doc_lengths = docs.map Prod.fst := by
  have := inv_addDocs docs emptyIndex inv_empty hnd (by simp [emptyIndex, keys])
  simpa [emptyIndex, keys] using this

theorem finalize_index (idx : InvertedIndex) : (finalize idx).index = idx.index := by
  unfold finalize; split <;> rfl

theorem finalize_doc_lengths (idx : InvertedIndex) :
    (finalize idx).doc_lengths = idx.doc_lengths := by
  unfold finalize; split <;> rfl

theorem finalize_doc_count (idx : InvertedIndex) :
    (finalize idx).doc_count = idx.doc_count := by
  unfold finalize; split <;> rfl

theorem finalize_term_doc_freq (idx : InvertedIndex) :
    (finalize idx).term_doc_freq = idx.term_doc_freq := by
  unfold finalize; split <;> rfl

theorem finalize_documents (idx : InvertedIndex) :
    (finalize idx).documents = idx.documents := by
  unfold finalize; split <;> rfl

theorem get_postings_finalize (idx : InvertedIndex) (t : Str) :
    get_postings (finalize idx) t = get_postings idx t := by
  unfold get_postings; rw [finalize_index]

theorem gdf_finalize (idx : InvertedIndex) (t : Str) :
    get_document_frequency (finalize idx) t = get_document_frequency idx t := by
  unfold get_document_frequency; rw [finalize_term_doc_freq]

theorem inv_finalize {idx : InvertedIndex} (h : Inv idx) : Inv (finalize idx) := by
  constructor <;>
    simp only [finalize_index, finalize_doc_lengths, finalize_doc_count,
      finalize_term_doc_freq, finalize_documents, get_postings_finalize, gdf_finalize]
  case nodupLen => exact h.nodupLen
  case docsKeys => exact h.docsKeys
  case postSub => exact h.postSub
  case postNodup => exact h.postNodup
  case dfLen => exact h.dfLen
  case freqPos => exact h.freqPos
  case lenPos => exact h.lenPos
  case countEq => exact h.countEq
  case keysPost => exact h.keysPost

theorem avg_finalize_pos {idx : InvertedIndex} (h : 0 < idx.doc_count) :
    (finalize idx).avg_doc_length =
      (sumValues idx.doc_lengths : ℚ) / (idx.doc_count : ℚ) := by
  unfold finalize
  rw [if_pos h]

theorem avg_finalize_of_zero {idx : InvertedIndex} (h : idx.doc_count = 0) :
    (finalize idx).avg_doc_length = idx.avg_doc_length := by
  unfold finalize
  rw [if_neg (by omega)]

theorem df_le_doc_count {idx : InvertedIndex} (h : Inv idx) (t : Str) :
    get_document_frequency idx t ≤ idx.doc_count := by
  rw [h.dfLen t, h.countEq]
  have : (get_postings idx t).length = ((get_postings idx t).map Prod.fst).length := by
    simp
  rw [this]
  exact nodup_subset_length (h.postNodup t) (fun d hd => by
    obtain ⟨p, hp, hpd⟩ := List.mem_map.mp hd
    exact hpd ▸ h.postSub t p hp)

theorem addDocs_cons (idx : InvertedIndex) (d : String × List Str × Metadata)
    (rest : List (String × List Str × Metadata)) :
    addDocs idx (d :: rest) = addDocs (add_document idx d.1 d.2.1 d.2.2) rest := rfl

theorem doc_count_addDocs (docs : List (String × List Str × Metadata)) :
    ∀ idx : InvertedIndex, (addDocs idx docs).doc_count = idx.doc_count + docs.length := by
  induction docs with
  | nil => intro idx; simp [addDocs]
  | cons d rest ih =>
    intro idx
    rw [addDocs_cons, ih, doc_count_add]
    simp
    omega

theorem sumValues_upsert_set {κ : Type} [DecidableEq κ] (m : List (κ × Nat)) {k : κ}
    (v : Nat) (h : k ∉ keys m) : sumValues (upsert m k 0 (fun _ => v)) = sumValues m + v := by
  induction m with
  | nil => simp [upsert, sumValues]
  | cons hd tl ih =>
    obtain ⟨a, w⟩ := hd
    simp only [keys, List.map_cons, List.mem_cons] at h
    push_neg at h
    simp only [upsert, if_neg h.1]
    have := ih h.2
    simp only [sumValues, List.map_cons, List.sum_cons] at *
    omega

theorem sumValues_addDocs :
    ∀ (docs : List (String × List Str × Metadata)) (idx : InvertedIndex),
    (∀ d ∈ docs.map Prod.fst, d ∉ keys idx.doc_lengths) →
    (docs.map Prod.fst).Nodup →
    sumValues (addDocs idx docs).doc_lengths =
      sumValues idx.doc_lengths + (docs.map (fun d => d.2.1.length)).sum := by
  intro docs
  induction docs with
  | nil => intro idx _ _; simp [addDocs]
  | cons doc rest ih =>
    intro idx hfresh hnd
    obtain ⟨did, tks, meta⟩ := doc
    simp only [List.map_cons, List.nodup_cons] at hnd
    have hdid : did ∉ keys idx.doc_lengths := hfresh did (by
      simp only [List.map_cons, List.mem_cons]
      exact Or.inl trivial)
    have hkeys : keys (add_document idx did tks meta).doc_lengths =
        keys idx.doc_lengths ++ [did] := by
      rw [doc_lengths_add, keys_upsert_of_not_mem _ _ _ hdid]
    have hfresh' : ∀ d ∈ rest.map Prod.fst,
        d ∉ keys (add_document idx did tks meta).doc_lengths := by
      intro d hdm
      rw [hkeys]
      simp only [List.mem_append, List.mem_singleton]
      rintro (hk | hk)
      · exact hfresh d (by
          simp only [List.map_cons, List.mem_cons]
          exact Or.inr hdm) hk
      · exact hnd.1 (hk ▸ hdm)
    rw [addDocs_cons]
    have hsum : sumValues (add_document idx did tks meta).doc_lengths =
        sumValues idx.doc_lengths + tks.length := by
      rw [doc_lengths_add, sumValues_upsert_set _ _ hdid]
    rw [ih _ hfresh' hnd.2, hsum]
    simp only [List.map_cons, List.sum_cons]
    omega

theorem mem_keys_foldTdf (L : List (Str × Nat)) (m0 : List (Str × Nat)) (t : Str) :
    t ∈ keys (L.foldl (fun m p => upsert m p.1 0 (· + 1)) m0) ↔
      t ∈ keys m0 ∨ t ∈ keys L := by
  induction L generalizing m0 with
  | nil => simp [keys]
  | cons hd tl ih =>
    obtain ⟨a, v⟩ := hd
    simp only [List.foldl_cons]
    rw [ih, mem_keys_upsert]
    simp only [keys, List.map_cons, List.mem_cons]
    tauto

theorem mem_keys_tdf_add (idx : InvertedIndex) (did : String) (tks : List Str)
    (meta : Metadata) (t : Str) :
    t ∈ keys (add_document idx did tks meta).term_doc_freq ↔
      t ∈ keys idx.term_doc_freq ∨ t ∈ tks := by
  unfold add_document
  simp only
  rw [mem_keys_foldTdf, mem_keys_countTokens]

theorem mem_keys_index_addDocs :
    ∀ (docs : List (String × List Str × Metadata)) (idx : InvertedIndex) (t : Str),
    t ∈ keys (addDocs idx docs).index ↔ t ∈ keys idx.index ∨ ∃ d ∈ docs, t ∈ d.2.1 := by
  intro docs
  induction docs with
  | nil => intro idx t; simp [addDocs]
  | cons doc rest ih =>
    intro idx t
    rw [addDocs_cons, ih, mem_keys_index_add]
    simp only [List.mem_cons]
    constructor
    · rintro ((h | h) | ⟨d, hd, ht⟩)
      · exact Or.inl h
      · exact Or.inr ⟨doc, Or.inl rfl, h⟩
      · exact Or.inr ⟨d, Or.inr hd, ht⟩
    · rintro (h | ⟨d, hd | hd, ht⟩)
      · exact Or.inl (Or.inl h)
      · exact Or.inl (Or.inr (hd ▸ ht))
      · exact Or.inr ⟨d, hd, ht⟩

theorem mem_keys_tdf_addDocs :
    ∀ (docs : List (String × List Str × Metadata)) (idx : InvertedIndex) (t : Str),
    t ∈ keys (addDocs idx docs).term_doc_freq ↔
      t ∈ keys idx.term_doc_freq ∨ ∃ d ∈ docs, t ∈ d.2.1 := by
  intro docs
  induction docs with
  | nil => intro idx t; simp [addDocs]
  | cons doc rest ih =>
    intro idx t
    rw [addDocs_cons, ih, mem_keys_tdf_add]
    simp only [List.mem_cons]
    constructor
    · rintro ((h | h) | ⟨d, hd, ht⟩)
      · exact Or.inl h
      · exact Or.inr ⟨doc, Or.inl rfl, h⟩
      · exact Or.inr ⟨d, Or.inr hd, ht⟩
    · rintro (h | ⟨d, hd | hd, ht⟩)
      · exact Or.inl (Or.inl h)
      · exact Or.inl (Or.inr (hd ▸ ht))
      · exact Or.inr ⟨d, hd, ht⟩

theorem get_postings_of_not_mem {idx : InvertedIndex} {t : Str}
    (h : t ∉ keys idx.index) : get_postings idx t = [] :=
  lookupD_of_not_mem _ _ h

theorem gdf_of_not_mem {idx : InvertedIndex} {t : Str}
    (h : t ∉ keys idx.term_doc_freq) : get_document_frequency idx t = 0 :=
  lookupD_of_not_mem _ _ h

theorem load_save (idx : InvertedIndex) : load (save idx) = idx := rfl

theorem avg_addDocs (docs : List (String × List Str × Metadata)) :
    ∀ idx : InvertedIndex, (addDocs idx docs).avg_doc_length = idx.avg_doc_length := by
  induction docs with
  | nil => intro idx; rfl
  | cons d rest ih =>
    intro idx
    rw [addDocs_cons, ih, avg_add]

/-- The IDF formula as the specification states it: 0 when the term is
unseen, `ln((N - df + 0.5)/(df + 0.5) + 1.0)` otherwise. -/
noncomputable def specIDF (N df : Nat) : ℝ :=
  if df = 0 then 0
  else Real.log (((N : ℝ) - (df : ℝ) + 0.5) / ((df : ℝ) + 0.5) + 1.0)

/-- The per-term BM25 contribution as the specification states it:
`IDF(term) * (tf * (k1+1)) / (tf + k1 * (1 - b + b * docLen/avgDocLen))`,
zero when `df = 0` (and, since the numerator vanishes, when `tf = 0`). -/
noncomputable def specContrib (k1 b : ℝ) (N df tf docLen : Nat) (avg : ℚ) : ℝ :=
  specIDF N df * (((tf : ℝ) * (k1 + 1)) /
    ((tf : ℝ) + k1 * (1 - b + b * ((docLen : ℝ) / ((avg : ℚ) : ℝ)))))

theorem specIDF_pos {N df : Nat} (h1 : 1 ≤ df) (h2 : df ≤ N) : 0 < specIDF N df := by
  unfold specIDF
  rw [if_neg (by omega)]
  apply Real.log_pos
  have hd : (0 : ℝ) < (df : ℝ) + 0.5 := by positivity
  have hn : (0 : ℝ) < (N : ℝ) - (df : ℝ) + 0.5 := by
    have : (df : ℝ) ≤ (N : ℝ) := by exact_mod_cast h2
    linarith
  have := div_pos hn hd
  linarith

theorem specIDF_nonneg {N df : Nat} (h2 : df ≤ N) : 0 ≤ specIDF N df := by
  by_cases h : df = 0
  · simp [specIDF, h]
  · exact le_of_lt (specIDF_pos (by omega) h2)

theorem compute_idf_eq (r : BM25Retriever) (idx : InvertedIndex)
    (hr : r.index = some idx) (t : Str) :
    compute_idf r t = specIDF idx.doc_count (get_document_frequency idx t) := by
  simp only [compute_idf, hr, specIDF]

theorem compute_idf_eq_zero_iff {r : BM25Retriever} {idx : InvertedIndex}
    (hr : r.index = some idx) {t : Str}
    (hd : get_document_frequency idx t ≤ idx.doc_count) :
    compute_idf r t = 0 ↔ get_document_frequency idx t = 0 := by
  rw [compute_idf_eq r idx hr]
  constructor
  · intro h
    by_contra hdf
    have := specIDF_pos (Nat.one_le_iff_ne_zero.mpr hdf) hd
    linarith
  · intro h
    simp [specIDF, h]

theorem bm25Loop_eq (r : BM25Retriever) (idx : InvertedIndex) (did : String)
    (docLen : Nat) (hr : r.index = some idx) (havg : idx.avg_doc_length ≠ 0)
    (qts : List Str)
    (hdf : ∀ t ∈ qts, get_document_frequency idx t ≤ idx.doc_count) (acc : ℝ) :
    bm25Loop r idx did docLen qts acc =
      some (acc + (qts.map (fun t => specContrib r.k1 r.b idx.doc_count
        (get_document_frequency idx t) (tfIn (get_postings idx t) did) docLen
        idx.avg_doc_length)).sum) := by
  induction qts generalizing acc with
  | nil => simp [bm25Loop]
  | cons t rest ih =>
    have hdft : get_document_frequency idx t ≤ idx.doc_count := hdf t (by simp)
    have hdfr : ∀ s ∈ rest, get_document_frequency idx s ≤ idx.doc_count :=
      fun s hs => hdf s (by simp [hs])
    rw [bm25Loop, List.map_cons, List.sum_cons]
    by_cases hidf : compute_idf r t = 0
    · rw [if_pos hidf, ih hdfr]
      have hdf0 : get_document_frequency idx t = 0 :=
        (compute_idf_eq_zero_iff hr hdft).mp hidf
      have hc : specContrib r.k1 r.b idx.doc_count (get_document_frequency idx t)
          (tfIn (get_postings idx t) did) docLen idx.avg_doc_length = 0 := by
        simp [specContrib, specIDF, hdf0]
      rw [hc, zero_add]
    · rw [if_neg hidf]
      by_cases htf : tfIn (get_postings idx t) did = 0
      · rw [if_pos htf, ih hdfr]
        have hc : specContrib r.k1 r.b idx.doc_count (get_document_frequency idx t)
            (tfIn (get_postings idx t) did) docLen idx.avg_doc_length = 0 := by
          simp [specContrib, htf]
        rw [hc, zero_add]
      · rw [if_neg htf, if_neg havg, ih hdfr]
        have key : ∀ x y z w : ℝ, x = w → some (y + x + z) = some (y + (w + z)) := by
          intro x y z w h
          rw [h, add_assoc]
        refine key _ _ _ _ ?_
        rw [specContrib, compute_idf_eq r idx hr]

theorem compute_bm25_score_eq (r : BM25Retriever) (idx : InvertedIndex)
    (hr : r.index = some idx) (havg : idx.avg_doc_length ≠ 0) (qts : List Str)
    (hdf : ∀ t ∈ qts, get_document_frequency idx t ≤ idx.doc_count) (did : String) :
    compute_bm25_score r qts did =
      some (if lookupD idx.doc_lengths did 0 = 0 then 0
        else (qts.map (fun t => specContrib r.k1 r.b idx.doc_count
          (get_document_frequency idx t) (tfIn (get_postings idx t) did)
          (lookupD idx.doc_lengths did 0) idx.avg_doc_length)).sum) := by
  simp only [compute_bm25_score, hr]
  by_cases hL : lookupD idx.doc_lengths did 0 = 0
  · rw [if_pos hL, if_pos hL]
  · rw [if_neg hL, if_neg hL, bm25Loop_eq r idx did _ hr havg qts hdf 0, zero_add]

theorem denomK_nonneg {k1 b dl : ℝ} (hk1 : 0 ≤ k1) (hb0 : 0 ≤ b) (hb1 : b ≤ 1)
    (hdl : 0 ≤ dl) : 0 ≤ k1 * (1 - b + b * dl) := by
  apply mul_nonneg hk1
  have := mul_nonneg hb0 hdl
  linarith

theorem specContrib_nonneg {k1 b : ℝ} (hk1 : 0 ≤ k1) (hb0 : 0 ≤ b) (hb1 : b ≤ 1)
    {N df : Nat} (tf docLen : Nat) {avg : ℚ} (hdf : df ≤ N) (havg : 0 ≤ avg) :
    0 ≤ specContrib k1 b N df tf docLen avg := by
  have hq : (0 : ℝ) ≤ ((avg : ℚ) : ℝ) := by exact_mod_cast havg
  have hdl : (0 : ℝ) ≤ (docLen : ℝ) / ((avg : ℚ) : ℝ) := by positivity
  have hden := denomK_nonneg hk1 hb0 hb1 hdl
  unfold specContrib
  apply mul_nonneg (specIDF_nonneg hdf)
  apply div_nonneg
  · positivity
  · have : (0 : ℝ) ≤ (tf : ℝ) := Nat.cast_nonneg tf
    linarith

theorem specContrib_pos {k1 b : ℝ} (hk1 : 0 ≤ k1) (hb0 : 0 ≤ b) (hb1 : b ≤ 1)
    {N df tf : Nat} (docLen : Nat) {avg : ℚ} (hdf1 : 1 ≤ df) (hdf : df ≤ N)
    (htf : 1 ≤ tf) (havg : 0 ≤ avg) :
    0 < specContrib k1 b N df tf docLen avg := by
  have hq : (0 : ℝ) ≤ ((avg : ℚ) : ℝ) := by exact_mod_cast havg
  have hdl : (0 : ℝ) ≤ (docLen : ℝ) / ((avg : ℚ) : ℝ) := by positivity
  have hden := denomK_nonneg hk1 hb0 hb1 hdl
  have h1 : (1 : ℝ) ≤ (tf : ℝ) := by exact_mod_cast htf
  unfold specContrib
  apply mul_pos (specIDF_pos hdf1 hdf)
  apply div_pos
  · nlinarith
  · linarith

theorem specContrib_mono {k1 b : ℝ} (hk1 : 0 ≤ k1) (hb0 : 0 ≤ b) (hb1 : b ≤ 1)
    {N df : Nat} {tf1 tf2 : Nat} (docLen : Nat) {avg : ℚ} (hdf : df ≤ N)
    (havg : 0 ≤ avg) (htf : tf1 ≤ tf2) :
    specContrib k1 b N df tf1 docLen avg ≤ specContrib k1 b N df tf2 docLen avg := by
  by_cases h0 : tf1 = 0
  · rw [h0]
    have hz : specContrib k1 b N df 0 docLen avg = 0 := by
      unfold specContrib
      simp
    rw [hz]
    exact specContrib_nonneg hk1 hb0 hb1 tf2 docLen hdf havg
  · have hq : (0 : ℝ) ≤ ((avg : ℚ) : ℝ) := by exact_mod_cast havg
    have hdl : (0 : ℝ) ≤ (docLen : ℝ) / ((avg : ℚ) : ℝ) := by positivity
    have hKnn := denomK_nonneg hk1 hb0 hb1 hdl
    have h1 : (1 : ℝ) ≤ (tf1 : ℝ) := by
      have : 1 ≤ tf1 := Nat.one_le_iff_ne_zero.mpr h0
      exact_mod_cast this
    have h12 : (tf1 : ℝ) ≤ (tf2 : ℝ) := by exact_mod_cast htf
    unfold specContrib
    apply mul_le_mul_of_nonneg_left _ (specIDF_nonneg hdf)
    set K : ℝ := k1 * (1 - b + b * ((docLen : ℝ) / ((avg : ℚ) : ℝ))) with hK
    rw [div_le_div_iff₀ (by linarith) (by linarith)]
    have hkey : 0 ≤ (k1 + 1) * K * ((tf2 : ℝ) - (tf1 : ℝ)) :=
      mul_nonneg (mul_nonneg (by linarith) hKnn) (by linarith)
    nlinarith

theorem specContrib_tf_zero (k1 b : ℝ) (N df docLen : Nat) (avg : ℚ) :
    specContrib k1 b N df 0 docLen avg = 0 := by
  unfold specContrib
  simp

theorem tfIn_mem {l : List (String × Nat)} {d : String} (h : tfIn l d ≠ 0) :
    (d, tfIn l d) ∈ l := by
  induction l with
  | nil => simp [tfIn] at h
  | cons p rest ih =>
    obtain ⟨a, f⟩ := p
    by_cases ha : a = d
    · subst ha
      simp [tfIn]
    · rw [tfIn, if_neg ha] at h ⊢
      exact List.mem_cons_of_mem _ (ih h)

theorem tfIn_eq_of_mem {l : List (String × Nat)} (hnd : (l.map Prod.fst).Nodup)
    {d : String} {f : Nat} (h : (d, f) ∈ l) : tfIn l d = f := by
  induction l with
  | nil => simp at h
  | cons p rest ih =>
    obtain ⟨a, g⟩ := p
    simp only [List.map_cons, List.nodup_cons] at hnd
    rcases List.mem_cons.mp h with h | h
    · obtain ⟨h1, h2⟩ := Prod.mk.injEq .. ▸ h
      rw [tfIn, if_pos h1.symm]
      exact h2.symm
    · have ha : a ≠ d := by
        intro he
        exact hnd.1 (he ▸ (List.mem_map.mpr ⟨(d, f), h, rfl⟩))
      rw [tfIn, if_neg ha]
      exact ih hnd.2 h

theorem tfIn_append_mid (P Q : List (String × Nat)) (d : String) (x : Nat) :
    tfIn (P ++ (d, x) :: Q) d = if d ∈ P.map Prod.fst then tfIn P d else x := by
  induction P with
  | nil => simp [tfIn]
  | cons p rest ih =>
    obtain ⟨a, g⟩ := p
    by_cases ha : a = d
    · subst ha
      simp [tfIn]
    · rw [List.cons_append, tfIn, if_neg ha, ih]
      have hda : ¬ d = a := fun he => ha he.symm
      by_cases hm : d ∈ List.map Prod.fst rest
      · simp [hm, tfIn, if_neg ha]
      · simp [hm, hda]

theorem scoreLE_iff (a b : ScoredDoc) : scoreLE a b = true ↔ b.score ≤ a.score := by
  unfold scoreLE
  exact decide_eq_true_iff

theorem scoreLE_trans (a b c : ScoredDoc) (h1 : scoreLE a b = true)
    (h2 : scoreLE b c = true) : scoreLE a c = true :=
  (scoreLE_iff a c).mpr (le_trans ((scoreLE_iff b c).mp h2) ((scoreLE_iff a b).mp h1))

theorem scoreLE_total (a b : ScoredDoc) : (scoreLE a b || scoreLE b a) = true := by
  rcases le_total a.score b.score with h | h
  · rw [(scoreLE_iff b a).mpr h]
    simp
  · rw [(scoreLE_iff a b).mpr h]
    simp

theorem annotate_doc_ids (top : List ScoredDoc) :
    (annotate top).map (fun e => e.doc_id) = top.map (fun sd => sd.doc_id) := by
  cases top with
  | nil => rfl
  | cons first rest => simp [annotate]

theorem annotate_length (top : List ScoredDoc) : (annotate top).length = top.length := by
  cases top with
  | nil => rfl
  | cons first rest => simp [annotate]

theorem annotate_mem {top : List ScoredDoc} {e : ResultEntry} (h : e ∈ annotate top) :
    e.toScoredDoc ∈ top := by
  cases top with
  | nil => simp [annotate] at h
  | cons first rest =>
    simp only [annotate, List.mem_map] at h
    obtain ⟨sd, hsd, he⟩ := h
    rw [← he]
    exact hsd

theorem annotate_pairwise {top : List ScoredDoc}
    (h : List.Pairwise (fun a b : ScoredDoc => b.score ≤ a.score) top) :
    List.Pairwise (fun a b : ResultEntry => b.score ≤ a.score) (annotate top) := by
  cases top with
  | nil => simp [annotate]
  | cons first rest =>
    rw [annotate, List.pairwise_map]
    exact h

/-- A two-element list that is already weakly sorted is left unchanged by
the stable `mergeSort`; in particular a tie keeps the input order. -/
theorem mergeSort_pair {a b : ScoredDoc} (h : scoreLE a b = true) :
    [a, b].mergeSort scoreLE = [a, b] := by
  have hsub : List.Sublist [a, b] ([a, b].mergeSort scoreLE) :=
    List.sublist_mergeSort scoreLE_trans scoreLE_total
      (by simp [h]) (List.Sublist.refl _)
  have hlen : ([a, b] : List ScoredDoc).length = ([a, b].mergeSort scoreLE).length := by
    rw [List.length_mergeSort]
  exact (hsub.eq_of_length hlen).symm

theorem scoreCandidates_built {k1 b : ℝ} (hk1 : 0 ≤ k1) (hb0 : 0 ≤ b) (hb1 : b ≤ 1)
    {idx : InvertedIndex} (hinv : Inv idx) (havg : 0 < idx.avg_doc_length)
    (qts : List Str) :
    ∀ cands : List String, (∀ d ∈ cands, isCandidate idx qts d) →
    ∃ scored, scoreCandidates ⟨k1, b, some idx⟩ idx qts cands = .ok scored ∧
      scored.map (fun sd => sd.doc_id) = cands ∧
      ∀ sd ∈ scored, 0 < sd.score := by
  intro cands
  induction cands with
  | nil => exact fun _ => ⟨[], rfl, rfl, by simp⟩
  | cons d rest ih =>
    intro hcand
    obtain ⟨t0, ht0, f0, hf0⟩ := hcand d (by simp)
    have hdfle : ∀ s ∈ qts, get_document_frequency idx s ≤ idx.doc_count :=
      fun s _ => df_le_doc_count hinv s
    have hL1 : 1 ≤ lookupD idx.doc_lengths d 0 := hinv.lenPos t0 (d, f0) hf0
    have hscore := compute_bm25_score_eq ⟨k1, b, some idx⟩ idx rfl
      (ne_of_gt havg) qts hdfle d
    rw [if_neg (by omega)] at hscore
    have htf0 : tfIn (get_postings idx t0) d = f0 :=
      tfIn_eq_of_mem (hinv.postNodup t0) hf0
    have hposf0 : 1 ≤ f0 := hinv.freqPos t0 (d, f0) hf0
    have hdf1 : 1 ≤ get_document_frequency idx t0 := by
      rw [hinv.dfLen t0]
      exact List.length_pos.mpr (fun he => by simp [he] at hf0)
    have hc0 : 0 < specContrib k1 b idx.doc_count (get_document_frequency idx t0)
        (tfIn (get_postings idx t0) d) (lookupD idx.doc_lengths d 0)
        idx.avg_doc_length := by
      rw [htf0]
      exact specContrib_pos hk1 hb0 hb1 _ hdf1 (df_le_doc_count hinv t0) hposf0
        (le_of_lt havg)
    have hnn : ∀ x ∈ (qts.map (fun t => specContrib k1 b idx.doc_count
        (get_document_frequency idx t) (tfIn (get_postings idx t) d)
        (lookupD idx.doc_lengths d 0) idx.avg_doc_length)), 0 ≤ x := by
      intro x hx
      obtain ⟨s, hsq, hse⟩ := List.mem_map.mp hx
      rw [← hse]
      exact specContrib_nonneg hk1 hb0 hb1 _ _ (df_le_doc_count hinv s) (le_of_lt havg)
    have hsumpos : 0 < (qts.map (fun t => specContrib k1 b idx.doc_count
        (get_document_frequency idx t) (tfIn (get_postings idx t) d)
        (lookupD idx.doc_lengths d 0) idx.avg_doc_length)).sum := by
      have hx : specContrib k1 b idx.doc_count (get_document_frequency idx t0)
          (tfIn (get_postings idx t0) d) (lookupD idx.doc_lengths d 0)
          idx.avg_doc_length ∈ (qts.map (fun t => specContrib k1 b idx.doc_count
          (get_document_frequency idx t) (tfIn (get_postings idx t) d)
          (lookupD idx.doc_lengths d 0) idx.avg_doc_length)) :=
        List.mem_map.mpr ⟨t0, ht0, rfl⟩
      calc (0 : ℝ) < _ := hc0
        _ ≤ _ := List.single_le_sum hnn _ hx
    have hdmem : d ∈ keys idx.documents := by
      rw [hinv.docsKeys]
      exact hinv.postSub t0 (d, f0) hf0
    obtain ⟨md, hmd⟩ := lookupOpt_of_mem _ hdmem
    obtain ⟨scored, hsc, hids, hpos⟩ := ih (fun x hx => hcand x (by simp [hx]))
    refine ⟨⟨d, (qts.map (fun t => specContrib k1 b idx.doc_count
        (get_document_frequency idx t) (tfIn (get_postings idx t) d)
        (lookupD idx.doc_lengths d 0) idx.avg_doc_length)).sum,
        md.title, md.url, md.language⟩ :: scored, ?_, ?_, ?_⟩
    · rw [scoreCandidates, hscore]
      simp only
      rw [if_pos hsumpos, hmd, hsc]
    · simp [hids]
    · intro sd hsd
      rcases List.mem_cons.mp hsd with h | h
      · rw [h]
        exact hsumpos
      · exact hpos sd h

theorem searchCore_built {k1 b : ℝ} (hk1 : 0 ≤ k1) (hb0 : 0 ≤ b) (hb1 : b ≤ 1)
    {idx : InvertedIndex} (hinv : Inv idx) (havg : 0 < idx.avg_doc_length)
    (qts : List Str) (top_k : Nat) (cands : List String)
    (hcand : ∀ d ∈ cands, isCandidate idx qts d) :
    ∃ res, searchCore ⟨k1, b, some idx⟩ idx qts top_k cands = .ok res ∧
      res.total_results = cands.length ∧
      res.results.length ≤ top_k ∧
      (∀ e ∈ res.results, e.doc_id ∈ cands) ∧
      List.Pairwise (fun a b : ResultEntry => b.score ≤ a.score) res.results ∧
      (∀ e ∈ res.results, 0 < e.score) := by
  obtain ⟨scored, hsc, hids, hpos⟩ :=
    scoreCandidates_built hk1 hb0 hb1 hinv havg qts cands hcand
  have hperm : (scored.mergeSort scoreLE).Perm scored := List.mergeSort_perm scored scoreLE
  have hsorted : List.Pairwise (fun a b : ScoredDoc => b.score ≤ a.score)
      (scored.mergeSort scoreLE) := by
    have := List.sorted_mergeSort scoreLE_trans scoreLE_total scored
    exact this.imp (fun h => (scoreLE_iff _ _).mp h)
  refine ⟨⟨qts, annotate ((scored.mergeSort scoreLE).take top_k), scored.length⟩, ?_, ?_, ?_, ?_, ?_, ?_⟩
  · rw [searchCore, hsc]
  · have : scored.length = (scored.map (fun sd => sd.doc_id)).length := by simp
    simp only
    rw [this, hids]
  · simp only
    rw [annotate_length, List.length_take]
    exact min_le_left _ _
  · intro e he
    have hmem : e.toScoredDoc ∈ scored := by
      have h1 := annotate_mem he
      have h2 := (List.take_sublist top_k (scored.mergeSort scoreLE)).subset h1
      exact hperm.subset h2
    rw [← hids]
    exact List.mem_map.mpr ⟨e.toScoredDoc, hmem, rfl⟩
  · exact annotate_pairwise (hsorted.sublist (List.take_sublist _ _))
  · intro e he
    have hmem : e.toScoredDoc ∈ scored := by
      have h1 := annotate_mem he
      have h2 := (List.take_sublist top_k (scored.mergeSort scoreLE)).subset h1
      exact hperm.subset h2
    exact hpos _ hmem

theorem bm25Loop_none {r : BM25Retriever} {idx : InvertedIndex} (d : String)
    {docLen : Nat} (havg : idx.avg_doc_length = 0) :
    ∀ (qts : List Str) (acc : ℝ),
    (∃ t ∈ qts, compute_idf r t ≠ 0 ∧ tfIn (get_postings idx t) d ≠ 0) →
    bm25Loop r idx d docLen qts acc = none := by
  intro qts
  induction qts with
  | nil =>
    rintro acc ⟨t, ht, _⟩
    simp at ht
  | cons t' rest ih =>
    rintro acc ⟨t, ht, hidf, htf⟩
    rw [bm25Loop]
    by_cases h1 : compute_idf r t' = 0
    · rw [if_pos h1]
      apply ih
      rcases List.mem_cons.mp ht with he | he
      · exact absurd (he ▸ h1) hidf
      · exact ⟨t, he, hidf, htf⟩
    · rw [if_neg h1]
      by_cases h2 : tfIn (get_postings idx t') d = 0
      · rw [if_pos h2]
        apply ih
        rcases List.mem_cons.mp ht with he | he
        · exact absurd (he ▸ h2) htf
        · exact ⟨t, he, hidf, htf⟩
      · rw [if_neg h2, if_pos havg]

theorem bm25Loop_skip {r : BM25Retriever} {idx : InvertedIndex} (d : String)
    {docLen : Nat} :
    ∀ (qts : List Str) (acc : ℝ),
    (∀ t ∈ qts, compute_idf r t = 0 ∨ tfIn (get_postings idx t) d = 0) →
    bm25Loop r idx d docLen qts acc = some acc := by
  intro qts
  induction qts with
  | nil => intro acc _; rfl
  | cons t' rest ih =>
    intro acc h
    rw [bm25Loop]
    rcases h t' (by simp) with h1 | h2
    · rw [if_pos h1]
      exact ih acc (fun t ht => h t (by simp [ht]))
    · by_cases h1 : compute_idf r t' = 0
      · rw [if_pos h1]
        exact ih acc (fun t ht => h t (by simp [ht]))
      · rw [if_neg h1, if_pos h2]
        exact ih acc (fun t ht => h t (by simp [ht]))

theorem compute_score_zeroDiv {r : BM25Retriever} {idx : InvertedIndex}
    (hr : r.index = some idx) (havg : idx.avg_doc_length = 0) (d : String)
    (qts : List Str) (hL : lookupD idx.doc_lengths d 0 ≠ 0)
    (hex : ∃ t ∈ qts, compute_idf r t ≠ 0 ∧ tfIn (get_postings idx t) d ≠ 0) :
    compute_bm25_score r qts d = none := by
  simp only [compute_bm25_score, hr]
  rw [if_neg hL]
  exact bm25Loop_none d havg qts 0 hex

theorem compute_score_skipped {r : BM25Retriever} {idx : InvertedIndex}
    (hr : r.index = some idx) (d : String) (qts : List Str)
    (h : lookupD idx.doc_lengths d 0 = 0 ∨
      ∀ t ∈ qts, compute_idf r t = 0 ∨ tfIn (get_postings idx t) d = 0) :
    compute_bm25_score r qts d = some 0 := by
  simp only [compute_bm25_score, hr]
  rcases h with h | h
  · rw [if_pos h]
  · by_cases hL : lookupD idx.doc_lengths d 0 = 0
    · rw [if_pos hL]
    · rw [if_neg hL]
      exact bm25Loop_skip d qts 0 h

theorem scoreCandidates_zeroDiv {r : BM25Retriever} {idx : InvertedIndex}
    (hr : r.index = some idx) (havg : idx.avg_doc_length = 0) (qts : List Str) :
    ∀ cands : List String,
    (∃ d ∈ cands, lookupD idx.doc_lengths d 0 ≠ 0 ∧
      ∃ t ∈ qts, compute_idf r t ≠ 0 ∧ tfIn (get_postings idx t) d ≠ 0) →
    scoreCandidates r idx qts cands = .error .zeroDivision := by
  intro cands
  induction cands with
  | nil =>
    rintro ⟨d, hd, _⟩
    simp at hd
  | cons d1 rest ih =>
    rintro ⟨d, hd, hLd, hex⟩
    by_cases hq : lookupD idx.doc_lengths d1 0 ≠ 0 ∧
        ∃ t ∈ qts, compute_idf r t ≠ 0 ∧ tfIn (get_postings idx t) d1 ≠ 0
    · rw [scoreCandidates, compute_score_zeroDiv hr havg d1 qts hq.1 hq.2]
    · have hskip : compute_bm25_score r qts d1 = some 0 := by
        apply compute_score_skipped hr
        by_cases hL : lookupD idx.doc_lengths d1 0 = 0
        · exact Or.inl hL
        · right
          intro t ht
          by_contra hcon
          push_neg at hcon
          exact hq ⟨hL, t, ht, hcon⟩
      rw [scoreCandidates, hskip]
      simp only
      rw [if_neg (lt_irrefl 0)]
      apply ih
      rcases List.mem_cons.mp hd with he | he
      · exact absurd (he ▸ ⟨hLd, hex⟩) hq
      · exact ⟨d, he, hLd, hex⟩

theorem search_none_index (k1 b : ℝ) (q : Str) (top_k : Nat) (lang : String) :
    search ⟨k1, b, none⟩ q top_k lang = .error .indexNotLoaded := rfl

theorem search_some_index (k1 b : ℝ) (idx : InvertedIndex) (q : Str) (top_k : Nat)
    (lang : String) :
    search ⟨k1, b, some idx⟩ q top_k lang =
      (if (preprocess (.str q) lang).isEmpty
        then .ok ⟨preprocess (.str q) lang, [], 0⟩
        else searchCore ⟨k1, b, some idx⟩ idx (preprocess (.str q) lang) top_k
          (candList idx (preprocess (.str q) lang))) := rfl

theorem candList_nil_query (idx : InvertedIndex) : candList idx [] = [] := rfl

theorem candList_of_empty_index {idx : InvertedIndex} (h : idx.index = [])
    (qts : List Str) : candList idx qts = [] := by
  have hp : ∀ t, get_postings idx t = [] := by
    intro t
    unfold get_postings
    rw [h]
    rfl
  have h2 : (qts.map (fun t => (get_postings idx t).map Prod.fst)).flatten = [] := by
    induction qts with
    | nil => rfl
    | cons t rest ih => simp [hp t, ih]
  rw [candList, h2]
  rfl

theorem searchCore_nil_cands (r : BM25Retriever) (idx : InvertedIndex)
    (qts : List Str) (top_k : Nat) :
    searchCore r idx qts top_k [] = .ok ⟨qts, [], 0⟩ := by
  rw [searchCore]
  simp only [scoreCandidates, List.mergeSort_nil, List.take_nil, annotate, List.length_nil]

/-- Shared concrete fixture: metadata for witness indices. -/
def mW : Metadata := ⟨"t".data, "u".data, "en"⟩

/-- Shared concrete fixture: two documents with distinct ids. -/
def docsW : List (String × List Str × Metadata) :=
  [("d0", ["aa".data, "bb".data], mW), ("d1", ["aa".data], mW)]

/-- Concrete fixture: a one-document index that was never finalized, so its
average document length is still 0. -/
def idxU : InvertedIndex := addDocs emptyIndex [("d1", ["aa".data], mW)]

/-- Concrete fixture: two documents with identical content, inserted in the
order `en_0`, `en_1`. -/
def docsC2 : List (String × List Str × Metadata) :=
  [("en_0", ["aa".data], mW), ("en_1", ["aa".data], mW)]

/-- Concrete fixture: the finalized index over `docsC2`. -/
def idxC2 : InvertedIndex := finalize (addDocs emptyIndex docsC2)

/-- Concrete fixture: the default-parameter retriever over `idxC2`. -/
noncomputable def rC2 : BM25Retriever := ⟨3 / 2, 3 / 4, some idxC2⟩

/-- The (tied) BM25 score that both documents of `idxC2` receive for the
query term `aa`. -/
noncomputable def scoreC2 : ℝ := specContrib (3 / 2) (3 / 4) 2 2 1 1 1

theorem avgC2_eq : idxC2.avg_doc_length = 1 := by
  rw [show idxC2 = finalize (addDocs emptyIndex docsC2) from rfl,
      avg_finalize_pos (by decide)]
  rw [show sumValues (addDocs emptyIndex docsC2).doc_lengths = 2 from by decide,
      show (addDocs emptyIndex docsC2).doc_count = 2 from by decide]
  norm_num

theorem scoreC2_pos : 0 < scoreC2 := by
  unfold scoreC2
  exact specContrib_pos (by norm_num) (by norm_num) (by norm_num) 1 (by norm_num)
    (by norm_num) (by norm_num) (by norm_num)

theorem scoreC2_doc (d : String)
    (hL : lookupD idxC2.doc_lengths d 0 = 1)
    (htf : tfIn (get_postings idxC2 ("aa".data)) d = 1) :
    compute_bm25_score rC2 ["aa".data] d = some scoreC2 := by
  have h := compute_bm25_score_eq rC2 idxC2 rfl
    (by rw [avgC2_eq]; exact one_ne_zero) ["aa".data] (by decide) d
  rw [h, if_neg (by rw [hL]; omega)]
  simp only [List.map_cons, List.map_nil, List.sum_cons, List.sum_nil, add_zero]
  rw [hL, htf, avgC2_eq]
  rw [show get_document_frequency idxC2 ("aa".data) = 2 from by decide,
      show idxC2.doc_count = 2 from by decide]
  rfl

/-- Concrete fixture: the scored entry of document `en_1` in `idxC2`. -/
noncomputable def sdC2a : ScoredDoc := ⟨"en_1", scoreC2, mW.title, mW.url, mW.language⟩

/-- Concrete fixture: the scored entry of document `en_0` in `idxC2`. -/
noncomputable def sdC2b : ScoredDoc := ⟨"en_0", scoreC2, mW.title, mW.url, mW.language⟩

theorem scoreCandidatesC2 :
    scoreCandidates rC2 idxC2 ["aa".data] ["en_1", "en_0"] = .ok [sdC2a, sdC2b] := by
  have h1 := scoreC2_doc "en_1" (by decide) (by decide)
  have h0 := scoreC2_doc "en_0" (by decide) (by decide)
  rw [scoreCandidates, h1]
  simp only
  rw [if_pos scoreC2_pos,
      show lookupOpt idxC2.documents "en_1" = some mW from by decide]
  rw [scoreCandidates, h0]
  simp only
  rw [if_pos scoreC2_pos,
      show lookupOpt idxC2.documents "en_0" = some mW from by decide]
  rfl

/-- The average length of the witness index, computed explicitly (the
kernel cannot evaluate rational division, so `decide` is not available). -/
theorem avgW_eq : (finalize (addDocs emptyIndex docsW)).avg_doc_length = 3 / 2 := by
  rw [avg_finalize_pos (by decide)]
  rw [show sumValues (addDocs emptyIndex docsW).doc_lengths = 3 from by decide,
      show (addDocs emptyIndex docsW).doc_count = 2 from by decide]
  norm_num

/-- C4: for every sequence of `add_document` calls with pairwise-distinct
doc ids (hence also after each call of such a sequence, the shorter
sequence being itself quantified over), both before and after `finalize`:
every term's document-frequency counter equals the number of distinct
document ids in its posting list, and every document id appearing in any
posting list has entries in the document-length map and the metadata map. -/
theorem c4_add_document_invariants (docs : List (String × List Str × Metadata))
    (hnd : (docs.map Prod.fst).Nodup) (idx2 : InvertedIndex)
    (hidx : idx2 = addDocs emptyIndex docs ∨ idx2 = finalize (addDocs emptyIndex docs)) :
    (∀ t, get_document_frequency idx2 t =
        ((get_postings idx2 t).map Prod.fst).dedup.length) ∧
    (∀ t p, p ∈ get_postings idx2 t →
        p.1 ∈ keys idx2.doc_lengths ∧ p.1 ∈ keys idx2.documents) := by
  have hinv0 : Inv (addDocs emptyIndex docs) := (inv_build docs hnd).1
  have hinv : Inv idx2 := by
    rcases hidx with h | h
    · rw [h]; exact hinv0
    · rw [h]; exact inv_finalize hinv0
  constructor
  · intro t
    rw [hinv.dfLen t, List.dedup_eq_self.mpr (hinv.postNodup t)]
    simp
  · intro t p hp
    exact ⟨hinv.postSub t p hp, by rw [hinv.docsKeys]; exact hinv.postSub t p hp⟩

/-- Witness for C4 on a concrete two-document index. -/
theorem c4_witness :
    ((docsW.map Prod.fst).Nodup) ∧
    (get_document_frequency (addDocs emptyIndex docsW) ("aa".data) =
      ((get_postings (addDocs emptyIndex docsW) ("aa".data)).map Prod.fst).dedup.length) ∧
    (∀ p, p ∈ get_postings (addDocs emptyIndex docsW) ("aa".data) →
      p.1 ∈ keys (addDocs emptyIndex docsW).doc_lengths ∧
      p.1 ∈ keys (addDocs emptyIndex docsW).documents) :=
  ⟨by decide,
   (c4_add_document_invariants docsW (by decide) _ (Or.inl rfl)).1 ("aa".data),
   fun p hp => (c4_add_document_invariants docsW (by decide) _ (Or.inl rfl)).2 _ p hp⟩

/-- C5: after any sequence of `add_document` calls with distinct ids and
one `finalize`, the average document length equals the sum of the recorded
document lengths divided by the document count (equivalently, the
arithmetic mean of the lengths of the added token lists), and equals 0 when
the document count is 0. -/
theorem c5_finalize_average (docs : List (String × List Str × Metadata))
    (hnd : (docs.map Prod.fst).Nodup) :
    ((addDocs emptyIndex docs).doc_count = docs.length) ∧
    (0 < (addDocs emptyIndex docs).doc_count →
        (finalize (addDocs emptyIndex docs)).avg_doc_length =
          (sumValues (finalize (addDocs emptyIndex docs)).doc_lengths : ℚ) /
            ((finalize (addDocs emptyIndex docs)).doc_count : ℚ)) ∧
    ((addDocs emptyIndex docs).doc_count = 0 →
        (finalize (addDocs emptyIndex docs)).avg_doc_length = 0) ∧
    (0 < docs.length →
        (finalize (addDocs emptyIndex docs)).avg_doc_length =
          ((docs.map (fun d => d.2.1.length)).sum : ℚ) / (docs.length : ℚ)) := by
  have hcount : (addDocs emptyIndex docs).doc_count = docs.length := by
    simpa [emptyIndex] using doc_count_addDocs docs emptyIndex
  refine ⟨hcount, ?_, ?_, ?_⟩
  · intro hpos
    rw [avg_finalize_pos hpos, finalize_doc_lengths, finalize_doc_count]
  · intro hzero
    rw [avg_finalize_of_zero hzero, avg_addDocs]
    rfl
  · intro hpos
    rw [avg_finalize_pos (by omega), hcount]
    have hsum : sumValues (addDocs emptyIndex docs).doc_lengths =
        (docs.map (fun d => d.2.1.length)).sum := by
      simpa [emptyIndex, sumValues, keys] using
        sumValues_addDocs docs emptyIndex (by simp [emptyIndex, keys]) hnd
    rw [hsum]
    push_cast
    rw [List.map_map]
    rfl

/-- Witness for C5 on a concrete two-document index. -/
theorem c5_witness :
    ((docsW.map Prod.fst).Nodup) ∧ (0 < docsW.length) ∧
    (finalize (addDocs emptyIndex docsW)).avg_doc_length =
      ((docsW.map (fun d => d.2.1.length)).sum : ℚ) / (docsW.length : ℚ) :=
  ⟨by decide, by decide, (c5_finalize_average docsW (by decide)).2.2.2 (by decide)⟩

/-- C6: saving an index and loading the result yields an index with the
same posting list and document frequency for every term and the same
average document length. -/
theorem c6_save_load_roundtrip (idx : InvertedIndex) (t : Str) :
    get_postings (load (save idx)) t = get_postings idx t ∧
    get_document_frequency (load (save idx)) t = get_document_frequency idx t ∧
    (load (save idx)).avg_doc_length = idx.avg_doc_length :=
  ⟨rfl, rfl, rfl⟩

/-- C9: a term never added to the index has an empty posting list and a
document frequency of 0 (before and after `finalize`), with no error
raised; and `preprocess` returns the empty token sequence on empty or
non-string input, with no error raised. -/
theorem c9_neutral_lookups (docs : List (String × List Str × Metadata))
    (t : Str) (lang : String) (hterm : ∀ d ∈ docs, t ∉ d.2.1) :
    get_postings (addDocs emptyIndex docs) t = [] ∧
    get_document_frequency (addDocs emptyIndex docs) t = 0 ∧
    get_postings (finalize (addDocs emptyIndex docs)) t = [] ∧
    get_document_frequency (finalize (addDocs emptyIndex docs)) t = 0 ∧
    preprocess (.str []) lang = [] ∧
    preprocess .nonStr lang = [] := by
  have hidx : t ∉ keys (addDocs emptyIndex docs).index := by
    rw [mem_keys_index_addDocs]
    rintro (h | ⟨d, hd, ht⟩)
    · simp [emptyIndex, keys] at h
    · exact hterm d hd ht
  have htdf : t ∉ keys (addDocs emptyIndex docs).term_doc_freq := by
    rw [mem_keys_tdf_addDocs]
    rintro (h | ⟨d, hd, ht⟩)
    · simp [emptyIndex, keys] at h
    · exact hterm d hd ht
  refine ⟨get_postings_of_not_mem hidx, gdf_of_not_mem htdf, ?_, ?_, rfl, rfl⟩
  · rw [get_postings_finalize]
    exact get_postings_of_not_mem hidx
  · rw [gdf_finalize]
    exact gdf_of_not_mem htdf

/-- Witness for C9 with an unseen term on a concrete index. -/
theorem c9_witness :
    (∀ d ∈ docsW, ("zz".data : Str) ∉ d.2.1) ∧
    get_postings (addDocs emptyIndex docsW) ("zz".data) = [] ∧
    get_document_frequency (addDocs emptyIndex docsW) ("zz".data) = 0 ∧
    preprocess (.str []) "auto" = [] ∧
    preprocess .nonStr "auto" = [] :=
  ⟨by decide,
   (c9_neutral_lookups docsW ("zz".data) "auto" (by decide)).1,
   (c9_neutral_lookups docsW ("zz".data) "auto" (by decide)).2.1,
   (c9_neutral_lookups docsW ("zz".data) "auto" (by decide)).2.2.2.2.1,
   (c9_neutral_lookups docsW ("zz".data) "auto" (by decide)).2.2.2.2.2⟩

/-- C3: on a finalized index with positive average document length,
`compute_bm25_score` equals the sum over the query terms of
`IDF(term) * (tf * (k1+1)) / (tf + k1 * (1 - b + b * docLen/avgDocLen))`
with `IDF = ln((N - df + 0.5)/(df + 0.5) + 1.0)` for `df ≥ 1` and `IDF = 0`
for `df = 0` (a term with `df = 0` or `tf = 0` contributing 0), and the
total score is nonnegative. -/
theorem c3_bm25_formula (docs : List (String × List Str × Metadata))
    (hnd : (docs.map Prod.fst).Nodup) (k1 b : ℝ)
    (hk1 : 0 ≤ k1) (hb0 : 0 ≤ b) (hb1 : b ≤ 1)
    (idx : InvertedIndex) (hidx : idx = finalize (addDocs emptyIndex docs))
    (havg : 0 < idx.avg_doc_length) (qts : List Str) (did : String) :
    compute_bm25_score ⟨k1, b, some idx⟩ qts did =
      some ((qts.map (fun t => specContrib k1 b idx.doc_count
        (get_document_frequency idx t) (tfIn (get_postings idx t) did)
        (lookupD idx.doc_lengths did 0) idx.avg_doc_length)).sum) ∧
    0 ≤ (qts.map (fun t => specContrib k1 b idx.doc_count
        (get_document_frequency idx t) (tfIn (get_postings idx t) did)
        (lookupD idx.doc_lengths did 0) idx.avg_doc_length)).sum := by
  have hinv : Inv idx := hidx ▸ inv_finalize (inv_build docs hnd).1
  have hdfle : ∀ t ∈ qts, get_document_frequency idx t ≤ idx.doc_count :=
    fun t _ => df_le_doc_count hinv t
  have havg' : idx.avg_doc_length ≠ 0 := ne_of_gt havg
  have hscore := compute_bm25_score_eq ⟨k1, b, some idx⟩ idx rfl havg' qts hdfle did
  constructor
  · rw [hscore]
    by_cases hL : lookupD idx.doc_lengths did 0 = 0
    · rw [if_pos hL]
      have : ∀ t ∈ qts, specContrib k1 b idx.doc_count
          (get_document_frequency idx t) (tfIn (get_postings idx t) did)
          (lookupD idx.doc_lengths did 0) idx.avg_doc_length = 0 := by
        intro t _
        have htf : tfIn (get_postings idx t) did = 0 := by
          by_contra htf
          have hm := tfIn_mem htf
          have := hinv.lenPos t _ hm
          simp only at this
          omega
        rw [htf, specContrib_tf_zero]
      rw [List.sum_eq_zero (by
        intro x hx
        obtain ⟨t, ht, hxe⟩ := List.mem_map.mp hx
        rw [← hxe]
        exact this t ht)]
    · rw [if_neg hL]
  · apply List.sum_nonneg
    intro x hx
    obtain ⟨t, ht, hxe⟩ := List.mem_map.mp hx
    rw [← hxe]
    exact specContrib_nonneg hk1 hb0 hb1 _ _ (df_le_doc_count hinv t) (le_of_lt havg)

/-- Witness for C3 on a concrete finalized two-document index with the
default tunables. -/
theorem c3_witness :
    ((docsW.map Prod.fst).Nodup) ∧
    (0 : ℚ) < (finalize (addDocs emptyIndex docsW)).avg_doc_length ∧
    compute_bm25_score ⟨3 / 2, 3 / 4, some (finalize (addDocs emptyIndex docsW))⟩
        ["aa".data] "d0" =
      some ((["aa".data].map (fun t => specContrib (3 / 2) (3 / 4)
        (finalize (addDocs emptyIndex docsW)).doc_count
        (get_document_frequency (finalize (addDocs emptyIndex docsW)) t)
        (tfIn (get_postings (finalize (addDocs emptyIndex docsW)) t) "d0")
        (lookupD (finalize (addDocs emptyIndex docsW)).doc_lengths "d0" 0)
        (finalize (addDocs emptyIndex docsW)).avg_doc_length)).sum) :=
  ⟨by decide, by rw [avgW_eq]; norm_num,
   (c3_bm25_formula docsW (by decide) (3 / 2) (3 / 4) (by norm_num) (by norm_num)
     (by norm_num) _ rfl (by rw [avgW_eq]; norm_num) ["aa".data] "d0").1⟩

/-- C7: increasing the term frequency recorded in one query term's posting
for a document, with all other postings, the document lengths, the document
count, the document frequencies and the average length held fixed, never
decreases `compute_bm25_score` for that document. -/
theorem c7_tf_monotone (k1 b : ℝ) (hk1 : 0 ≤ k1) (hb0 : 0 ≤ b) (hb1 : b ≤ 1)
    (idx1 idx2 : InvertedIndex) (t : Str) (d : String) (P Q : List (String × Nat))
    (tf1 tf2 : Nat) (htf : tf1 ≤ tf2)
    (hlen : idx2.doc_lengths = idx1.doc_lengths)
    (hcount : idx2.doc_count = idx1.doc_count)
    (hdf : ∀ s, get_document_frequency idx2 s = get_document_frequency idx1 s)
    (havg : idx2.avg_doc_length = idx1.avg_doc_length)
    (havgpos : 0 < idx1.avg_doc_length)
    (hother : ∀ s, s ≠ t → get_postings idx2 s = get_postings idx1 s)
    (hp1 : get_postings idx1 t = P ++ (d, tf1) :: Q)
    (hp2 : get_postings idx2 t = P ++ (d, tf2) :: Q)
    (qts : List Str)
    (hdfN : ∀ s ∈ qts, get_document_frequency idx1 s ≤ idx1.doc_count) :
    ∃ v1 v2, compute_bm25_score ⟨k1, b, some idx1⟩ qts d = some v1 ∧
      compute_bm25_score ⟨k1, b, some idx2⟩ qts d = some v2 ∧ v1 ≤ v2 := by
  have havg1 : idx1.avg_doc_length ≠ 0 := ne_of_gt havgpos
  have havg2 : idx2.avg_doc_length ≠ 0 := by rw [havg]; exact havg1
  have hdfN2 : ∀ s ∈ qts, get_document_frequency idx2 s ≤ idx2.doc_count := by
    intro s hs
    rw [hdf s, hcount]
    exact hdfN s hs
  have h1 := compute_bm25_score_eq ⟨k1, b, some idx1⟩ idx1 rfl havg1 qts hdfN d
  have h2 := compute_bm25_score_eq ⟨k1, b, some idx2⟩ idx2 rfl havg2 qts hdfN2 d
  refine ⟨_, _, h1, h2, ?_⟩
  rw [hlen]
  by_cases hL : lookupD idx1.doc_lengths d 0 = 0
  · rw [if_pos hL, if_pos hL]
  · rw [if_neg hL, if_neg hL]
    apply List.sum_le_sum
    intro s hs
    simp only
    rw [hcount, hdf s, havg]
    by_cases hst : s = t
    · subst hst
      rw [hp1, hp2, tfIn_append_mid, tfIn_append_mid]
      by_cases hm : d ∈ P.map Prod.fst
      · rw [if_pos hm, if_pos hm]
      · rw [if_neg hm, if_neg hm]
        exact specContrib_mono hk1 hb0 hb1 _ (hdfN s hs) (le_of_lt havgpos) htf
    · rw [hother s hst]

/-- Concrete fixture for the C7 witness: a one-document index where the
single posting for term `aa` carries frequency 1. -/
def idxC7a : InvertedIndex :=
  ⟨[("aa".data, [("d", 1)])], [("d", 2)], 1, 2, [("aa".data, 1)], [("d", mW)]⟩

/-- Concrete fixture for the C7 witness: the same index with the posting
frequency raised to 2. -/
def idxC7b : InvertedIndex :=
  ⟨[("aa".data, [("d", 2)])], [("d", 2)], 1, 2, [("aa".data, 1)], [("d", mW)]⟩

/-- Witness for C7 on a concrete pair of indices differing only in one
posting's term frequency. -/
theorem c7_witness :
    idxC7b.doc_lengths = idxC7a.doc_lengths ∧
    (0 : ℚ) < idxC7a.avg_doc_length ∧
    ∃ v1 v2, compute_bm25_score ⟨3 / 2, 3 / 4, some idxC7a⟩ ["aa".data] "d" = some v1 ∧
      compute_bm25_score ⟨3 / 2, 3 / 4, some idxC7b⟩ ["aa".data] "d" = some v2 ∧
      v1 ≤ v2 :=
  ⟨rfl, by decide,
   c7_tf_monotone (3 / 2) (3 / 4) (by norm_num) (by norm_num) (by norm_num)
     idxC7a idxC7b ("aa".data) "d" [] [] 1 2 (by norm_num)
     rfl rfl (fun _ => rfl) rfl (by decide)
     (fun s hs => by simp [get_postings, idxC7a, idxC7b, lookupD, hs])
     rfl rfl ["aa".data] (by decide)⟩

/-- C1 (amended): searching with no loaded index fails fast with the
`ValueError`; searching an index whose postings map is empty returns an
empty result set with `total_results = 0` and raises no error for every
query; but searching a not-finalized index (average document length still
0) raises a `ZeroDivisionError` — rather than returning an empty result
set — as soon as some candidate document with a recorded nonzero length
matches some query term of nonzero IDF. -/
theorem c1_unloaded_empty_unfinalized :
    (∀ (k1 b : ℝ) (q : Str) (top_k : Nat) (lang : String),
      search ⟨k1, b, none⟩ q top_k lang = .error .indexNotLoaded) ∧
    (∀ (k1 b : ℝ) (idx : InvertedIndex) (q : Str) (top_k : Nat) (lang : String),
      idx.index = [] →
      ∃ res, search ⟨k1, b, some idx⟩ q top_k lang = .ok res ∧
        res.results = [] ∧ res.total_results = 0) ∧
    (∀ (k1 b : ℝ) (idx : InvertedIndex) (q : Str) (top_k : Nat) (lang : String),
      idx.avg_doc_length = 0 →
      (∃ d ∈ candList idx (preprocess (.str q) lang),
        lookupD idx.doc_lengths d 0 ≠ 0 ∧
        ∃ t ∈ preprocess (.str q) lang,
          compute_idf ⟨k1, b, some idx⟩ t ≠ 0 ∧ tfIn (get_postings idx t) d ≠ 0) →
      search ⟨k1, b, some idx⟩ q top_k lang = .error .zeroDivision) := by
  refine ⟨fun k1 b q top_k lang => search_none_index k1 b q top_k lang, ?_, ?_⟩
  · intro k1 b idx q top_k lang hempty
    rw [search_some_index]
    by_cases hq : (preprocess (.str q) lang).isEmpty
    · rw [if_pos hq]
      exact ⟨_, rfl, rfl, rfl⟩
    · rw [if_neg hq, candList_of_empty_index hempty, searchCore_nil_cands]
      exact ⟨_, rfl, rfl, rfl⟩
  · intro k1 b idx q top_k lang havg hex
    rw [search_some_index]
    by_cases hq : (preprocess (.str q) lang).isEmpty
    · exfalso
      obtain ⟨d, hd, _⟩ := hex
      rw [List.isEmpty_iff.mp hq, candList_nil_query] at hd
      simp at hd
    · rw [if_neg hq, searchCore,
        scoreCandidates_zeroDiv rfl havg (preprocess (.str q) lang) _ hex]

/-- Witness for the amended C1: the unloaded-retriever error and the
empty-index empty result on concrete inputs. -/
theorem c1_witness :
    search ⟨3 / 2, 3 / 4, none⟩ ("aa".data) 10 "auto" = .error .indexNotLoaded ∧
    emptyIndex.index = [] ∧
    ∃ res, search ⟨3 / 2, 3 / 4, some emptyIndex⟩ ("aa".data) 10 "auto" = .ok res ∧
      res.results = [] ∧ res.total_results = 0 :=
  ⟨c1_unloaded_empty_unfinalized.1 (3 / 2) (3 / 4) ("aa".data) 10 "auto", rfl,
   c1_unloaded_empty_unfinalized.2.1 (3 / 2) (3 / 4) emptyIndex ("aa".data) 10 "auto" rfl⟩

/-- Counterexample to C1 as stated: scoring against a non-finalized,
non-empty index raises a `ZeroDivisionError` instead of returning an empty
result set, because `doc_length / avgdl` divides by the average length that
is still 0 before `finalize`. -/
theorem c1_counterexample :
    idxU.avg_doc_length = 0 ∧
    search ⟨3 / 2, 3 / 4, some idxU⟩ ("aa".data) 10 "auto" = .error .zeroDivision := by
  have hidf : compute_idf ⟨3 / 2, 3 / 4, some idxU⟩ ("aa".data) ≠ 0 := by
    rw [compute_idf_eq _ idxU rfl,
      show get_document_frequency idxU ("aa".data) = 1 from by decide,
      show idxU.doc_count = 1 from by decide]
    exact (specIDF_pos (le_refl 1) (le_refl 1)).ne'
  refine ⟨by decide, ?_⟩
  rw [search_some_index,
    if_neg (by rw [show preprocess (.str ("aa".data)) "auto" = ["aa".data] from by decide]; decide)]
  rw [show preprocess (.str ("aa".data)) "auto" = ["aa".data] from by decide]
  rw [show candList idxU ["aa".data] = ["d1"] from by decide]
  rw [searchCore, scoreCandidates_zeroDiv rfl (by decide) ["aa".data] ["d1"]
    ⟨"d1", by decide, by decide, "aa".data, by decide, hidf, by decide⟩]

/-- C2 (amended): on a finalized index, for every enumeration of the
candidate set (Python iterates a `set`, whose order is unspecified), the
result list of `search` contains only candidate document ids, is sorted by
score in descending order, and has length at most `top_k`.  Ties are kept
in the order of the candidate-set enumeration, which need not be the
original insertion order (see the counterexample). -/
theorem c2_search_ranking (docs : List (String × List Str × Metadata))
    (hnd : (docs.map Prod.fst).Nodup) (k1 b : ℝ)
    (hk1 : 0 ≤ k1) (hb0 : 0 ≤ b) (hb1 : b ≤ 1)
    (idx : InvertedIndex) (hidx : idx = finalize (addDocs emptyIndex docs))
    (havg : 0 < idx.avg_doc_length) (qts : List Str) (top_k : Nat)
    (cands : List String) (hcand : ∀ d ∈ cands, isCandidate idx qts d) :
    ∃ res, searchCore ⟨k1, b, some idx⟩ idx qts top_k cands = .ok res ∧
      (∀ e ∈ res.results, isCandidate idx qts e.doc_id) ∧
      List.Pairwise (fun a b : ResultEntry => b.score ≤ a.score) res.results ∧
      res.results.length ≤ top_k := by
  have hinv : Inv idx := hidx ▸ inv_finalize (inv_build docs hnd).1
  obtain ⟨res, h1, _, h3, h4, h5, _⟩ :=
    searchCore_built hk1 hb0 hb1 hinv havg qts top_k cands hcand
  exact ⟨res, h1, fun e he => hcand _ (h4 e he), h5, h3⟩

/-- Witness for the amended C2 on the concrete two-document index. -/
theorem c2_witness :
    ((docsC2.map Prod.fst).Nodup) ∧ (0 : ℚ) < idxC2.avg_doc_length ∧
    ∃ res, searchCore ⟨3 / 2, 3 / 4, some idxC2⟩ idxC2 ["aa".data] 10
        ["en_0", "en_1"] = .ok res ∧
      (∀ e ∈ res.results, isCandidate idxC2 ["aa".data] e.doc_id) ∧
      List.Pairwise (fun a b : ResultEntry => b.score ≤ a.score) res.results ∧
      res.results.length ≤ 10 :=
  ⟨by decide, by rw [avgC2_eq]; norm_num,
   c2_search_ranking docsC2 (by decide) (3 / 2) (3 / 4) (by norm_num) (by norm_num)
     (by norm_num) idxC2 rfl (by rw [avgC2_eq]; norm_num) ["aa".data] 10
     ["en_0", "en_1"] (by
       intro d hd
       rcases List.mem_cons.mp hd with h | h
       · exact ⟨"aa".data, by simp, 1, by rw [h]; decide⟩
       · rcases List.mem_cons.mp h with h | h
         · exact ⟨"aa".data, by simp, 1, by rw [h]; decide⟩
         · simp at h)⟩

/-- Counterexample to C2 as stated: with two identically scored documents
inserted in the order `en_0`, `en_1`, the admissible candidate-set
enumeration `["en_1", "en_0"]` makes `search` return the tied documents in
the order `en_1`, `en_0` — not in original insertion/document-id order. -/
theorem c2_counterexample :
    (["en_1", "en_0"] : List String).Nodup ∧
    (∀ d : String, d ∈ (["en_1", "en_0"] : List String) ↔
      isCandidate idxC2 ["aa".data] d) ∧
    keys idxC2.doc_lengths = ["en_0", "en_1"] ∧
    ∃ res, searchCore rC2 idxC2 ["aa".data] 10 ["en_1", "en_0"] = .ok res ∧
      res.results.map (fun e => e.doc_id) = ["en_1", "en_0"] ∧
      ∀ e ∈ res.results, e.score = scoreC2 := by
  refine ⟨by decide, ?_, by decide, ?_⟩
  · intro d
    constructor
    · intro hd
      rcases List.mem_cons.mp hd with h | h
      · exact ⟨"aa".data, by simp, 1, by rw [h]; decide⟩
      · rcases List.mem_cons.mp h with h | h
        · exact ⟨"aa".data, by simp, 1, by rw [h]; decide⟩
        · simp at h
    · rintro ⟨t, ht, f, hf⟩
      have ht' : t = "aa".data := by
        rcases List.mem_cons.mp ht with h | h
        · exact h
        · simp at h
      rw [ht', show get_postings idxC2 ("aa".data) =
          [("en_0", 1), ("en_1", 1)] from by decide] at hf
      rcases List.mem_cons.mp hf with h | h
      · simp [Prod.ext_iff] at h
        simp [h.1]
      · rcases List.mem_cons.mp h with h | h
        · simp [Prod.ext_iff] at h
          simp [h.1]
        · simp at h
  · have hpair : [sdC2a, sdC2b].mergeSort scoreLE = [sdC2a, sdC2b] :=
      mergeSort_pair ((scoreLE_iff _ _).mpr
        (le_of_eq (rfl : sdC2b.score = sdC2a.score)))
    rw [searchCore, scoreCandidatesC2]
    simp only
    rw [hpair, List.take_of_length_le (by simp)]
    refine ⟨⟨["aa".data], annotate [sdC2a, sdC2b], 2⟩, rfl, ?_, ?_⟩
    · show (annotate [sdC2a, sdC2b]).map (fun e => e.doc_id) = ["en_1", "en_0"]
      rw [annotate_doc_ids]
      rfl
    · intro e he
      have hm : e.toScoredDoc ∈ [sdC2a, sdC2b] := annotate_mem he
      rcases List.mem_cons.mp hm with h | h
      · show e.toScoredDoc.score = scoreC2
        rw [h]
        rfl
      · rcases List.mem_cons.mp h with h | h
        · show e.toScoredDoc.score = scoreC2
          rw [h]
          rfl
        · simp at h

/-- C10: on a finalized index built from at least one document with
pairwise-distinct ids, every indexed term has strictly positive IDF;
consequently every candidate of a search scores strictly positively, the
`score > 0` filter discards nothing, and `total_results` equals the number
of candidate documents. -/
theorem c10_all_candidates_kept (docs : List (String × List Str × Metadata))
    (hnd : (docs.map Prod.fst).Nodup) (hne : docs ≠ [])
    (idx : InvertedIndex) (hidx : idx = finalize (addDocs emptyIndex docs)) :
    (∀ t ∈ keys idx.index, 0 < compute_idf ⟨3 / 2, 3 / 4, some idx⟩ t) ∧
    (∀ (qts : List Str) (top_k : Nat) (cands : List String),
      (∀ d ∈ cands, isCandidate idx qts d) →
      ∃ res, searchCore ⟨3 / 2, 3 / 4, some idx⟩ idx qts top_k cands = .ok res ∧
        res.total_results = cands.length ∧
        (∀ e ∈ res.results, 0 < e.score)) := by
  have hinv : Inv idx := hidx ▸ inv_finalize (inv_build docs hnd).1
  constructor
  · intro t ht
    rw [compute_idf_eq _ idx rfl]
    apply specIDF_pos _ (df_le_doc_count hinv t)
    rw [hinv.dfLen t]
    exact List.length_pos.mpr (hinv.keysPost t ht)
  · intro qts top_k cands hcand
    cases cands with
    | nil =>
      rw [searchCore_nil_cands]
      exact ⟨_, rfl, rfl, by simp⟩
    | cons d0 rest =>
      have hc0 := hcand d0 (by simp)
      obtain ⟨t0, ht0, f0, hf0⟩ := hc0
      have hc : idx.doc_count = docs.length := by
        rw [hidx, finalize_doc_count]
        simpa [emptyIndex] using doc_count_addDocs docs emptyIndex
      have hcpos : 0 < idx.doc_count := by
        rw [hc]
        exact List.length_pos.mpr hne
      have hcount2 : 0 < (addDocs emptyIndex docs).doc_count := by
        rw [← finalize_doc_count, ← hidx]
        exact hcpos
      have hd0 : d0 ∈ keys idx.doc_lengths := hinv.postSub t0 (d0, f0) hf0
      have hs1 : 1 ≤ lookupD idx.doc_lengths d0 0 := hinv.lenPos t0 (d0, f0) hf0
      have hsum : 1 ≤ sumValues idx.doc_lengths :=
        le_trans hs1 (lookupD_le_sumValues _ hd0)
      have hlens : idx.doc_lengths = (addDocs emptyIndex docs).doc_lengths := by
        rw [hidx, finalize_doc_lengths]
      have havg : 0 < idx.avg_doc_length := by
        rw [hidx, avg_finalize_pos hcount2]
        apply div_pos
        · rw [← hlens]
          exact_mod_cast Nat.lt_of_lt_of_le Nat.zero_lt_one hsum
        · exact_mod_cast hcount2
      obtain ⟨res, h1, h2, _, _, _, h6⟩ :=
        @searchCore_built (3 / 2) (3 / 4) (by norm_num) (by norm_num)
          (by norm_num) idx hinv havg qts top_k (d0 :: rest) hcand
      exact ⟨res, h1, h2, h6⟩

/-- Witness for C10 on the concrete two-document index. -/
theorem c10_witness :
    ((docsW.map Prod.fst).Nodup) ∧ docsW ≠ [] ∧
    ("aa".data ∈ keys (finalize (addDocs emptyIndex docsW)).index) ∧
    (0 < compute_idf ⟨3 / 2, 3 / 4, some (finalize (addDocs emptyIndex docsW))⟩
      ("aa".data)) ∧
    ∃ res, searchCore ⟨3 / 2, 3 / 4, some (finalize (addDocs emptyIndex docsW))⟩
        (finalize (addDocs emptyIndex docsW)) ["aa".data] 10 ["d0", "d1"] =
        .ok res ∧ res.total_results = 2 ∧ (∀ e ∈ res.results, 0 < e.score) :=
  ⟨by decide, by decide, by decide,
   (c10_all_candidates_kept docsW (by decide) (by decide) _ rfl).1 ("aa".data) (by decide),
   (c10_all_candidates_kept docsW (by decide) (by decide) _ rfl).2 ["aa".data] 10
     ["d0", "d1"] (by
       intro d hd
       rcases List.mem_cons.mp hd with h | h
       · exact ⟨"aa".data, by simp, 1, by rw [h]; decide⟩
       · rcases List.mem_cons.mp h with h | h
         · exact ⟨"aa".data, by simp, 1, by rw [h]; decide⟩
         · simp at h)⟩

theorem map_id_of_mem {α : Type} (f : α → α) : ∀ (l : List α),
    (∀ a ∈ l, f a = a) → l.map f = l := by
  intro l
  induction l with
  | nil => intro _; rfl
  | cons x xs ih =>
    intro h
    rw [List.map_cons, h x (by simp), ih (fun a ha => h a (by simp [ha]))]

theorem scriptFilter_joinT (L : String) (t : List Str)
    (h : ∀ x ∈ t, ∀ c ∈ x, tokChar L c = true) :
    scriptFilter L (joinT t) = joinT t := by
  unfold scriptFilter
  apply map_id_of_mem
  intro c hc
  unfold sfChar
  rcases joinT_chars t c hc with h0 | ⟨x, hx, hcx⟩
  · rw [h0, if_pos (by rw [isWS_space]; simp)]
  · rw [if_pos (by rw [tokChar_allowed (h x hx c hcx)]; simp)]

theorem pyLower_joinT (L : String) (t : List Str)
    (h : ∀ x ∈ t, ∀ c ∈ x, tokChar L c = true) :
    (joinT t).map pyLower = joinT t := by
  apply map_id_of_mem
  intro c hc
  rcases joinT_chars t c hc with h0 | ⟨x, hx, hcx⟩
  · rw [h0]
    exact ws_pyLower isWS_space
  · exact tokChar_pyLower (h x hx c hcx)

theorem is_bangla_true_of {x : Str} (hne : x ≠ [])
    (h : ∀ c ∈ x, isBanglaChar c = true) : is_bangla x = true := by
  cases x with
  | nil => exact absurd rfl hne
  | cons c cs =>
    unfold is_bangla
    exact List.any_eq_true.mpr ⟨c, by simp, h c (by simp)⟩

theorem is_bangla_false_of {x : Str} (h : ∀ c ∈ x, isBanglaChar c = false) :
    is_bangla x = false := by
  unfold is_bangla
  rw [List.any_eq_false]
  intro c hc
  rw [h c hc]
  simp

theorem is_bangla_of_tokChar {L : String} {x : Str} (hne : x ≠ [])
    (h : ∀ c ∈ x, tokChar L c = true) :
    is_bangla x = decide (L = "bn") := by
  by_cases hL : L = "bn"
  · have h1 : is_bangla x = true :=
      is_bangla_true_of hne (fun c hc => tokChar_bangla_of (hL ▸ h c hc))
    rw [h1, decide_eq_true hL]
  · have h1 : is_bangla x = false :=
      is_bangla_false_of (fun c hc => tokChar_not_bangla hL (h c hc))
    rw [h1, decide_eq_false hL]

theorem resolveLang_joinT (language : String) (text : Str) (t : List Str)
    (hne : t ≠ [])
    (htk : ∀ x ∈ t, x ≠ [] ∧ ∀ c ∈ x, tokChar (resolveLang language text) c = true) :
    resolveLang language (joinT t) = resolveLang language text := by
  by_cases ha : language = "auto"
  · have hj : is_bangla (joinT t) = decide (resolveLang language text = "bn") := by
      by_cases hL : resolveLang language text = "bn"
      · rw [decide_eq_true hL]
        cases t with
        | nil => exact absurd rfl hne
        | cons x ts =>
          have hx := htk x (by simp)
          cases hxc : x with
          | nil => exact absurd hxc hx.1
          | cons c cs =>
            unfold is_bangla
            refine List.any_eq_true.mpr
              ⟨c, mem_joinT ((c :: cs) :: ts) (c :: cs) (by simp) c (by simp), ?_⟩
            exact tokChar_bangla_of (hL ▸ hx.2 c (by rw [hxc]; simp))
      · rw [decide_eq_false hL]
        apply is_bangla_false_of
        intro c hc
        rcases joinT_chars t c hc with h0 | ⟨v, hv, hcv⟩
        · rw [h0]
          rfl
        · exact tokChar_not_bangla hL ((htk v hv).2 c hcv)
    unfold resolveLang
    rw [if_pos ha, if_pos ha]
    by_cases hb : is_bangla text = true
    · have hL : resolveLang language text = "bn" := by
        unfold resolveLang
        rw [if_pos ha, if_pos hb]
      rw [hL, decide_eq_true (rfl : ("bn" : String) = "bn")] at hj
      rw [if_pos hb, if_pos hj]
    · have hL : resolveLang language text = "en" := by
        unfold resolveLang
        rw [if_pos ha, if_neg hb]
      rw [hL, decide_eq_false (by decide : ¬ ("en" : String) = "bn")] at hj
      rw [if_neg hb, if_neg (by rw [hj]; simp)]
  · unfold resolveLang
    rw [if_neg ha, if_neg ha]

theorem resolveSW_eq_of_class {language L : String} {l1 l2 : List Str}
    (h1 : l1 ≠ []) (h2 : l2 ≠ [])
    (hc1 : ∀ x ∈ l1, x ≠ [] ∧ ∀ c ∈ x, tokChar L c = true)
    (hc2 : ∀ x ∈ l2, x ≠ [] ∧ ∀ c ∈ x, tokChar L c = true) :
    resolveSW language l1 = resolveSW language l2 := by
  unfold resolveSW
  by_cases ha : language = "auto"
  · rw [if_pos ha, if_pos ha]
    cases l1 with
    | nil => exact absurd rfl h1
    | cons x1 r1 =>
      cases l2 with
      | nil => exact absurd rfl h2
      | cons x2 r2 =>
        have hx1 := hc1 x1 (by simp)
        have hx2 := hc2 x2 (by simp)
        show (if is_bangla x1 then "bn" else "en") =
          (if is_bangla x2 then "bn" else "en")
        simp only [is_bangla_of_tokChar hx1.1 hx1.2,
          is_bangla_of_tokChar hx2.1 hx2.2]
  · rw [if_neg ha, if_neg ha]

theorem tokenize_joinT (text : Str) (language : String) (t : List Str)
    (hne : t ≠ [])
    (htk : ∀ x ∈ t, x ≠ [] ∧ ∀ c ∈ x, tokChar (resolveLang language text) c = true)
    (hpat : ∀ x ∈ t, ¬ List.IsInfix ("http".data) x.dropLast ∧
      ¬ List.IsInfix ("www".data) x.dropLast) :
    tokenize (joinT t) language = t := by
  have hL2 := resolveLang_joinT language text t hne htk
  have hwf : ∀ x ∈ t, x ≠ [] ∧ ∀ c ∈ x, isWS c = false := fun x hx =>
    ⟨(htk x hx).1, fun c hc => tokChar_not_WS ((htk x hx).2 c hc)⟩
  have hat : ∀ x ∈ t, ∀ c ∈ x, c ≠ '@' := fun x hx c hc =>
    tokChar_ne_at ((htk x hx).2 c hc)
  rw [tokenize_eq_splitWS, hL2]
  rw [removeUrls_joinT t hpat, removeEmails_joinT t hwf hat]
  rw [scriptFilter_joinT _ t (fun x hx => (htk x hx).2)]
  rw [pyLower_joinT (resolveLang language text) t (fun x hx => (htk x hx).2)]
  exact splitWS_joinT t hwf

/-- C8: preprocessing is idempotent on its own output, amended with the
proviso that no produced token contains `http` or `www` followed by at
least one more character inside the token: if `t` is the token sequence
produced by `preprocess` on a string with some language hint, then running
`preprocess` with the same hint on the space-joined rendering of `t`
returns `t` again.  (Without the proviso the claim is false: the
case-sensitive URL regex can leave an uppercase token that, once
lowercased by the first pass, is deleted as a URL by the second pass.) -/
theorem c8_preprocess_idempotent (text : Str) (language : String)
    (hpat : ∀ x ∈ preprocess (.str text) language,
      ¬ List.IsInfix ("http".data) x.dropLast ∧
      ¬ List.IsInfix ("www".data) x.dropLast) :
    preprocess (.str (joinT (preprocess (.str text) language))) language =
      preprocess (.str text) language := by
  by_cases hte : preprocess (.str text) language = []
  · rw [hte]
    rfl
  · have hprops := preprocess_props text language
    have htk : ∀ x ∈ preprocess (.str text) language, x ≠ [] ∧
        ∀ c ∈ x, tokChar (resolveLang language text) c = true :=
      fun x hx => ⟨(hprops x hx).1, (hprops x hx).2.1⟩
    have hjne : joinT (preprocess (.str text) language) ≠ [] :=
      joinT_ne_nil _ hte (fun x hx => (hprops x hx).1)
    have hje : ¬ ((joinT (preprocess (.str text) language)).isEmpty = true) := by
      cases hcase : joinT (preprocess (.str text) language) with
      | nil => exact absurd hcase hjne
      | cons a l => simp
    have htok2 := tokenize_joinT text language _ hte htk hpat
    have hT1ne : tokenize text language ≠ [] := by
      intro hT
      cases hcase : preprocess (.str text) language with
      | nil => exact hte hcase
      | cons x r =>
        have hmem := preprocess_sub text language x (by rw [hcase]; simp)
        rw [hT] at hmem
        simp at hmem
    have hswe : resolveSW language (preprocess (.str text) language) =
        resolveSW language (tokenize text language) :=
      resolveSW_eq_of_class hte hT1ne htk
        (fun x hx => tokenize_chars text language x hx)
    have hsw : remove_stopwords (preprocess (.str text) language) language =
        preprocess (.str text) language := by
      unfold remove_stopwords
      apply List.filter_eq_self.mpr
      intro x hx
      rw [decide_eq_true_eq, hswe]
      exact (hprops x hx).2.2.2
    rw [preprocess_str, if_neg hje, htok2, hsw]
    apply List.filter_eq_self.mpr
    intro x hx
    rw [decide_eq_true_eq]
    exact (hprops x hx).2.2.1

/-- Witness for the amended C8: on `"hello the world"` with hint `'auto'`,
the produced tokens satisfy the no-URL-pattern proviso and a second
preprocessing pass reproduces them. -/
theorem c8_witness :
    (∀ x ∈ preprocess (.str ("hello the world".data)) "auto",
      ¬ List.IsInfix ("http".data) x.dropLast ∧
      ¬ List.IsInfix ("www".data) x.dropLast) ∧
    preprocess (.str (joinT (preprocess (.str ("hello the world".data)) "auto"))) "auto" =
      preprocess (.str ("hello the world".data)) "auto" :=
  ⟨by decide, c8_preprocess_idempotent ("hello the world".data) "auto" (by decide)⟩

/-- Counterexample to C8 as stated: `"HTTPAB"` under hint `'en'` survives
the case-sensitive URL regex and preprocesses to the single token
`httpab`, but the second pass deletes that lowercased token as a URL, so
re-preprocessing the joined output does not return the same sequence. -/
theorem c8_counterexample :
    preprocess (.str ("HTTPAB".data)) "en" = ["httpab".data] ∧
    joinT (preprocess (.str ("HTTPAB".data)) "en") = "httpab".data ∧
    preprocess (.str (joinT (preprocess (.str ("HTTPAB".data)) "en"))) "en" ≠
      preprocess (.str ("HTTPAB".data)) "en" :=
  ⟨by decide, by decide, by decide⟩

end CLIR
